import Mathlib

/-!
Verification of the mdict-cpp dictionary engine (`mdict.cc`) against its
natural-language specification.  Byte strings are modelled as `List Nat`
(one `Nat` per `unsigned char`); all machine subtractions that the source
performs on `unsigned long` values are modelled as `Nat` truncated
subtraction, which agrees with the source whenever no underflow occurs
(the situations the theorems consider).  External helpers that are not
part of the repository's sources (binutils byte readers, zlib, adler32,
ripemd128, the std regex engine) are modelled from the specification or
taken as explicit function parameters, as noted on each definition.
-/

/-- Byte strings: one natural number per byte of a C++ `std::string`. -/
abbrev Str := List Nat

/-- Bytes of an ASCII string literal, used to transcribe C++ string constants. -/
def bytes (s : String) : Str := s.toList.map Char.toNat

/-- Modelled from the spec (§4.A, binutils.h is not under src/):
big-endian u16 read at the head of a byte slice. -/
def beBinToU16 (l : Str) : Nat := l.getD 0 0 * 256 + l.getD 1 0

/-- Modelled from the spec (§4.A, binutils.h is not under src/):
big-endian u32 read at the head of a byte slice. -/
def beBinToU32 (l : Str) : Nat :=
  l.getD 0 0 * 16777216 + l.getD 1 0 * 65536 + l.getD 2 0 * 256 + l.getD 3 0

/-- Modelled from the spec (§4.A, binutils.h is not under src/):
big-endian u64 read at the head of a byte slice. -/
def beBinToU64 (l : Str) : Nat :=
  ((((((l.getD 0 0 * 256 + l.getD 1 0) * 256 + l.getD 2 0) * 256 + l.getD 3 0) * 256 +
    l.getD 4 0) * 256 + l.getD 5 0) * 256 + l.getD 6 0) * 256 + l.getD 7 0

/-- Modelled from the spec (§4.I, binutils.h is not under src/):
`be_bin_to_utf8(buf, offset, len)` returns the `len` bytes of `buf`
starting at `offset`; the UTF-8 decode is byte-for-byte, so it is
modelled as the identity on the byte slice. -/
def beBinToUtf8 (buf : Str) (offset len : Nat) : Str := (buf.drop offset).take len

/-- `::tolower` in the C locale, as used by the query functions on single
bytes: ASCII uppercase is shifted by 32, everything else is unchanged. -/
def toLowerB (c : Nat) : Nat := if 65 ≤ c ∧ c ≤ 90 then c + 32 else c

/-- `std::transform(.., ::tolower)` over a byte string. -/
def toLowerStr (s : Str) : Str := s.map toLowerB

/-- Lexicographic byte comparison, `std::string::operator<`. -/
def lexLt : Str → Str → Bool
  | [], [] => false
  | [], _ :: _ => true
  | _ :: _, [] => false
  | a :: as, b :: bs => if a < b then true else if b < a then false else lexLt as bs

/-- `s.rfind(p, 0) == 0`: `p` is a prefix of `s`.  Arguments: haystack, needle. -/
def startsWithB : Str → Str → Bool
  | _, [] => true
  | [], _ :: _ => false
  | a :: as, b :: bs => a = b && startsWithB as bs

/-- `s.find(n) != npos`: `n` occurs as a contiguous substring of `s`. -/
def containsSub : Str → Str → Bool
  | [], n => startsWithB [] n
  | h@(_ :: t), n => startsWithB h n || containsSub t n

/-- The punctuation set stripped by `_s` (mdict.cc lines 150-153):
space, ':', '.', ',', '-', '_', '\x27', '(', ')', '#', '<', '>', '!', '/',
backslash, '[', ']', '\x7b', '\x7d', '@'. -/
def IsStripped (c : Nat) : Prop :=
  c = 32 ∨ c = 58 ∨ c = 46 ∨ c = 44 ∨ c = 45 ∨ c = 95 ∨ c = 39 ∨ c = 40 ∨
  c = 41 ∨ c = 35 ∨ c = 60 ∨ c = 62 ∨ c = 33 ∨ c = 47 ∨ c = 92 ∨ c = 91 ∨
  c = 93 ∨ c = 123 ∨ c = 125 ∨ c = 64

instance (c : Nat) : Decidable (IsStripped c) := by unfold IsStripped; infer_instance

/-- `_s` (mdict.cc lines 137-168): the key-comparison normalizer.  ASCII
uppercase is lowered by adding 32, bytes of the punctuation set are
dropped, every other byte is kept unchanged. -/
def _s : Str → Str
  | [] => []
  | c :: rest =>
    if 65 ≤ c ∧ c ≤ 90 then (c + 32) :: _s rest
    else if IsStripped c then _s rest
    else c :: _s rest

/-- Stated from the spec's words (§4.B `normalize_for_compare`): lowercase
every ASCII byte 'A'..'Z' by adding 32, then remove exactly the bytes of
the punctuation set, leaving all other bytes (including bytes ≥ 0x80)
unchanged. -/
def normSpec (s : Str) : Str :=
  (s.map (fun c => if 65 ≤ c ∧ c ≤ 90 then c + 32 else c)).filter
    (fun c => decide (¬ IsStripped c))

theorem _s_cons (c : Nat) (rest : Str) :
    _s (c :: rest) =
      (if 65 ≤ c ∧ c ≤ 90 then (c + 32) :: _s rest
       else if IsStripped c then _s rest else c :: _s rest) := rfl

theorem _s_eq_normSpec (s : Str) : _s s = normSpec s := by
  induction s with
  | nil => rfl
  | cons c rest ih =>
    rw [_s_cons]
    by_cases hu : 65 ≤ c ∧ c ≤ 90
    · have hns : ¬ IsStripped (c + 32) := by unfold IsStripped; omega
      simp [hu, hns, ih, normSpec]
    · by_cases hs : IsStripped c
      · simp [hu, hs, ih, normSpec]
      · simp [hu, hs, ih, normSpec]

theorem _s_idem (s : Str) : _s (_s s) = _s s := by
  induction s with
  | nil => rfl
  | cons c rest ih =>
    rw [_s_cons]
    by_cases hu : 65 ≤ c ∧ c ≤ 90
    · have h1 : ¬ (65 ≤ c + 32 ∧ c + 32 ≤ 90) := by omega
      have h2 : ¬ IsStripped (c + 32) := by unfold IsStripped; omega
      rw [if_pos hu, _s_cons, if_neg h1, if_neg h2, ih]
    · by_cases hs : IsStripped c
      · rw [if_neg hu, if_pos hs, ih]
      · rw [if_neg hu, if_neg hs, _s_cons, if_neg hu, if_neg hs, ih]

/-- C8: the key normalizer `_s` is idempotent, and its output is exactly the
input with ASCII 'A'..'Z' shifted by +32, the bytes of the documented
punctuation set removed, and every other byte (in particular every byte
≥ 0x80) left unchanged, as captured by `normSpec`. -/
theorem c8_normalizer :
    (∀ s : Str, _s (_s s) = _s s) ∧ (∀ s : Str, _s s = normSpec s) :=
  ⟨_s_idem, _s_eq_normSpec⟩

/-- Encoding values stored by `read_header` (mdict.cc `ENCODING_*`). -/
inductive EncodingT where
  | utf8 | utf16 | big5 | gb18030
deriving DecidableEq, Repr

/-- Encryption modes stored by `read_header` (mdict.cc `ENCRYPT_*`). -/
inductive EncryptT where
  | noEnc | recordEnc | keyInfoEnc
deriving DecidableEq, Repr

/-- The exceptions thrown by the engine's parsing and query code. -/
inductive MdictErr where
  | invalidEncryptedFile
  | notImplemented
  | assertFailed
  | uncompressedNotSupported
  | recordEncrypted
  | lzoNotSupported
  | decompressFailed
  | sizeMismatch
  | checksumMismatch
  | unknownCompressType
deriving DecidableEq, Repr

/-- `key_list_item` (mdict.h): one key entry of the global key index. -/
structure KeyItem where
  record_start : Nat
  key_word : Str
deriving DecidableEq, Repr

/-- `record_header_item` (mdict.h): per-record-block sizes and prefix-sum
accumulators filled by `read_record_block_header`. -/
structure RecordHeaderItem where
  compressed_size : Nat
  decompressed_size : Nat
  compressed_size_accumulator : Nat
  decompressed_size_accumulator : Nat
deriving DecidableEq, Repr

/-- `key_block_info` (mdict.h): one descriptor of the key-block-info table,
with the constructor-argument order of mdict.cc lines 1514-1516. -/
structure KeyBlockInfoItem where
  first_key : Str
  last_key : Str
  key_block_start_offset : Nat
  key_block_comp_size : Nat
  key_block_decomp_size : Nat
  key_block_comp_accumulator : Nat
  key_block_decomp_accumulator : Nat
deriving DecidableEq, Repr

/-- The part of the `Mdict` object state that the record-block decoder and
the query functions read: the key index, the record-block directory, and
the file bytes the record blocks are read from.  `record_block_size` is
the total compressed record size from the record-block-info header. -/
structure MdictQ where
  isMdd : Bool
  encrypt : EncryptT
  key_list : List KeyItem
  record_header : List RecordHeaderItem
  record_block_size : Nat
  record_block_offset : Nat
  file : Str
deriving Repr

/-- `Encrypted` attribute handling of `read_header` (mdict.cc lines 271-285).
`none` models an absent attribute (`find == end`); `operator[]` on an
absent key yields the empty string, giving the same branch. -/
def parseEncrypted (a : Option Str) : EncryptT :=
  match a with
  | none => .noEnc
  | some s =>
    if s = [] ∨ s = bytes "No" then .noEnc
    else if s = bytes "Yes" then .recordEnc
    else if s.headD 0 = 50 then .keyInfoEnc
    else if s.headD 0 = 49 then .recordEnc
    else .noEnc

/-- `Encoding` attribute handling of `read_header` (mdict.cc lines 352-365),
transcribed with its actual first condition
`headinfo.find("Encoding") != headinfo.end() || headinfo["Encoding"] == "" || headinfo["Encoding"] == "UTF-8"`:
a present attribute satisfies the first disjunct, an absent one the second
(after `operator[]` inserts the empty string), so the first branch always
fires and the later comparisons are unreachable. -/
def parseEncoding (a : Option Str) : EncodingT :=
  if a.isSome ∨ a.getD [] = [] ∨ a.getD [] = bytes "UTF-8" then .utf8
  else if a.getD [] = bytes "GBK" ∨ a.getD [] = bytes "GB2312" then .gb18030
  else if a.getD [] = bytes "Big5" ∨ a.getD [] = bytes "BIG5" then .big5
  else if a.getD [] = bytes "utf16" ∨ a.getD [] = bytes "utf-16" then .utf16
  else .utf8

/-- `std::isspace` on the bytes the version parser can meet. -/
def isSpaceB (c : Nat) : Bool := c = 32 || (9 ≤ c && c ≤ 13)

/-- `std::isdigit`. -/
def isDigitB (c : Nat) : Bool := 48 ≤ c && c ≤ 57

/-- Decimal value of a digit run, as accumulated by the parser's loop. -/
def digitsVal (l : Str) : Nat := l.foldl (fun a c => a * 10 + (c - 48)) 0

/-- `parse_version` (mdict.cc lines 307-335): skip leading whitespace, read
the integer digits, then an optional '.' followed by fraction digits.
The C++ accumulates into `float`; versions are short decimals, modelled
exactly with `Rat`. -/
def parseVersion (s : Str) : Rat :=
  let t := s.dropWhile isSpaceB
  if t.isEmpty then 0
  else
    let ip := t.takeWhile isDigitB
    let r := t.dropWhile isDigitB
    let fp : Rat :=
      match r with
      | c :: rest =>
        if c = 46 then
          (digitsVal (rest.takeWhile isDigitB) : Rat) / 10 ^ (rest.takeWhile isDigitB).length
        else 0
      | [] => 0
    (digitsVal ip : Rat) + fp

/-- Nibble swap `((x >> 4) | (x << 4)) & 0xff` on a byte. -/
def rotl4 (b : Nat) : Nat := ((b % 256) >>> 4 ||| (b % 256) <<< 4) &&& 255

/-- The loop of `fast_decrypt` (mdict.cc lines 643-655).  `i` is the running
byte index, `previous` the pre-transform value of the preceding byte
(seeded `0x36` by `fast_decrypt`).  Each operand is a C++ `byte`, hence
the `% 256` truncations. -/
def fastDecryptLoop (key : Str) (keyLen : Nat) : Str → Nat → Nat → Str
  | [], _, _ => []
  | b :: rest, i, previous =>
    (rotl4 b ^^^ previous % 256 ^^^ i % 256 ^^^ key.getD (i % keyLen) 0 % 256) ::
      fastDecryptLoop key keyLen rest (i + 1) b

/-- `fast_decrypt(data, key, data_len, key_len)` (mdict.cc lines 643-655). -/
def fastDecrypt (data key : Str) (keyLen : Nat) : Str :=
  fastDecryptLoop key keyLen data 0 54

/-- `mdx_decrypt` (mdict.cc lines 666-681): the key buffer is
`comp_block[4..8] ++ [0x95, 0x36, 0x00, 0x00]` (the calloc'd tail bytes
are zero), hashed by the external `ripemd128bytes` (ripemd128.h is not
under src/, so the hash is an explicit function parameter); bytes from
offset 8 are rewritten by `fast_decrypt` with key length 16, the first
8 bytes are returned unchanged. -/
def mdxDecrypt (ripemd : Str → Str) (comp_block : Str) : Str :=
  let key_buffer := (comp_block.drop 4).take 4 ++ [149, 54, 0, 0]
  let key := ripemd key_buffer
  comp_block.take 8 ++ fastDecrypt (comp_block.drop 8) key 16

/-- Number read dispatched on `number_width` (4 or 8), as the source does
with `be_bin_to_u32` / `be_bin_to_u64`. -/
def readNumW (width : Nat) (l : Str) : Nat :=
  if width = 8 then beBinToU64 l else beBinToU32 l

/-- The numbers produced by `read_key_block_header`. -/
structure KBHeader where
  key_block_num : Nat
  entries_num : Nat
  key_block_info_decompress_size : Nat
  key_block_info_size : Nat
  key_block_size : Nat
deriving DecidableEq, Repr

/-- `read_key_block_header` (mdict.cc lines 387-578).  `number_width` is 8
for version ≥ 2.0 and 4 below (set by `read_header`).  A record-encrypted
file is rejected with `invalid_argument` before any number is parsed.
The transcription keeps the source's slip at lines 464-468: for 4-byte
width the entries field is assigned to `key_block_num` and `entries_num`
keeps its initialiser 0. -/
def readKeyBlockHeaderE (version : Rat) (encrypt : EncryptT) (file : Str)
    (key_block_start_offset : Nat) : Except MdictErr KBHeader :=
  let width := if 2 ≤ version then 8 else 4
  let n := if 2 ≤ version then 40 else 16
  let buf := (file.drop key_block_start_offset).take n
  if encrypt = .recordEnc then .error .invalidEncryptedFile
  else
    let kb_num0 := readNumW width buf
    let kb_num := if width = 8 then kb_num0 else beBinToU32 (buf.drop 4)
    let entries := if width = 8 then beBinToU64 (buf.drop 8) else 0
    let kbiDecomp := if 2 ≤ version then beBinToU64 (buf.drop 16) else 0
    let sizeStart := if 2 ≤ version then 24 else 8
    let kbiSize := readNumW width (buf.drop sizeStart)
    let kbSize := readNumW width (buf.drop (sizeStart + width))
    .ok ⟨kb_num, entries, kbiDecomp, kbiSize, kbSize⟩

/-- The header fields `decode_key_block_info` reads. -/
structure KBICtx where
  version : Rat
  encrypt : EncryptT
  utf16 : Bool
  isMdd : Bool
  key_block_num : Nat
  key_block_info_decompress_size : Nat

/-- `be_bin_to_u8`: the single byte at the head of the slice. -/
def beBinToU8 (l : Str) : Nat := l.getD 0 0

/-- The descriptor walk of `decode_key_block_info` (mdict.cc lines
1390-1528), one recursion step per `counter` increment, running over the
decompressed buffer `db`.  `mddKeyDec` models the external
`utf16le_to_utf8`-based key decoding used for MDD files
(encode/char_decoder.h is not under src/), applied to the byte slice and
its length as at lines 1437-1444. -/
def kbInfoLoop (version : Rat) (utf16 isMdd : Bool) (mddKeyDec : Str → Nat → Str)
    (db : Str) :
    Nat → Nat → Nat → Nat → Nat → List KeyBlockInfoItem
  | 0, _, _, _, _ => []
  | count + 1, off, prevStart, compAcc, decompAcc =>
    let width := if 2 ≤ version then 8 else 4
    let byteWidth := if 2 ≤ version then 2 else 1
    let textTerm := if 2 ≤ version then 1 else 0
    let off := off + width
    let firstKeySize := if 2 ≤ version then beBinToU16 (db.drop off) else beBinToU8 (db.drop off)
    let off := off + byteWidth
    let stepGap := if utf16 then (firstKeySize + textTerm) * 2 else firstKeySize + textTerm
    let firstKey := if isMdd then mddKeyDec (db.drop off) (stepGap - textTerm)
                    else beBinToUtf8 db off (stepGap - textTerm)
    let off := off + stepGap
    let lastKeySize := if 2 ≤ version then beBinToU16 (db.drop off) else beBinToU8 (db.drop off)
    let off := off + byteWidth
    let stepGap := if utf16 then (lastKeySize + textTerm) * 2 else lastKeySize + textTerm
    let lastKey := if isMdd then mddKeyDec (db.drop off) (stepGap - textTerm)
                   else beBinToUtf8 db off (stepGap - textTerm)
    let off := off + stepGap
    let compSize := if 2 ≤ version then beBinToU64 (db.drop off) else beBinToU32 (db.drop off)
    let off := off + width
    let decompSize := if 2 ≤ version then beBinToU64 (db.drop off) else beBinToU32 (db.drop off)
    let off := off + width
    ⟨firstKey, lastKey, prevStart, compSize, decompSize, compAcc, decompAcc⟩ ::
      kbInfoLoop version utf16 isMdd mddKeyDec db count off (prevStart + compSize)
        (compAcc + compSize) (decompAcc + decompSize)

/-- `decode_key_block_info` (mdict.cc lines 1319-1549).  For version ≥ 2.0
the first four payload bytes must be 02 00 00 00 (asserted), the payload
is descrambled by `mdx_decrypt` when the file is key-info-scrambled,
bytes from offset 8 are zlib-decompressed (zlib_wrapper.h is not under
src/; `zlib` is the decompressor parameter), the decompressed size is
asserted against the header value, and the descriptor walk produces the
key-block-info list.  For version < 2.0 the source throws
`std::logic_error("not implements yet")`. -/
def decodeKeyBlockInfoE (zlib : Str → Str) (ripemd : Str → Str)
    (mddKeyDec : Str → Nat → Str) (ctx : KBICtx) (buf : Str) :
    Except MdictErr (List KeyBlockInfoItem) :=
  if 2 ≤ ctx.version then
    if buf.getD 0 0 = 2 ∧ buf.getD 1 0 = 0 ∧ buf.getD 2 0 = 0 ∧ buf.getD 3 0 = 0 then
      let dec := if ctx.encrypt = .keyInfoEnc then mdxDecrypt ripemd buf else buf
      let db := zlib (dec.drop 8)
      if db.length = ctx.key_block_info_decompress_size then
        .ok (kbInfoLoop ctx.version ctx.utf16 ctx.isMdd mddKeyDec db ctx.key_block_num 0 0 0 0)
      else .error .assertFailed
    else .error .assertFailed
  else .error .notImplemented

/-- The default record-header entry used to model an out-of-range
`record_header[idx]` access; every theorem keeps indices in range. -/
def rhDefault : RecordHeaderItem := ⟨0, 0, 0, 0⟩

/-- The slice bounds computed for one key entry inside
`decode_record_block_by_rid` (mdict.cc lines 1161-1173):
`expect_start = record_start - decomp_accu`; `expect_end` is the distance
to the next key's `record_start` when a successor exists in the global
key list, and `record_block_size - (previous_end + previous_uncomp_size)`
for the last key; `upbound` starts at `uncomp_size` and is lowered to
`expect_end` when that is smaller. -/
def recordValueBounds (recordBlockSize decompAcc uncompSize prevTail : Nat)
    (k : KeyItem) (next : Option KeyItem) : Nat × Nat :=
  let expectStart := k.record_start - decompAcc
  let expectEnd :=
    match next with
    | some k' => k'.record_start - k.record_start
    | none => recordBlockSize - prevTail
  (expectStart, min expectEnd uncompSize)

/-- The per-byte uppercase-hex encoding of an MDD value
(mdict.cc lines 1178-1186). -/
def hexEncode (l : Str) : Str :=
  l.flatMap (fun b => [(bytes "0123456789ABCDEF").getD (b / 16 % 16) 0,
                       (bytes "0123456789ABCDEF").getD (b % 16) 0])

/-- The while loop of `decode_record_block_by_rid` over the global key list
(mdict.cc lines 1143-1199): keys before the block are skipped, the loop
breaks at the first key at or past the end of the block, and every key in
the block emits a `(key_text, value)` pair whose value is the byte slice
at `recordValueBounds` (hex-encoded for MDD files). -/
def scanLoop (recordBlockSize decompAcc uncompSize prevTail : Nat) (isMdd : Bool)
    (content : Str) : List KeyItem → List (Str × Str)
  | [] => []
  | k :: rest =>
    if k.record_start < decompAcc then
      scanLoop recordBlockSize decompAcc uncompSize prevTail isMdd content rest
    else if uncompSize ≤ k.record_start - decompAcc then []
    else
      let b := recordValueBounds recordBlockSize decompAcc uncompSize prevTail k rest.head?
      let v := if isMdd then hexEncode ((content.drop b.1).take b.2)
               else beBinToUtf8 content b.1 b.2
      (k.key_word, v) :: scanLoop recordBlockSize decompAcc uncompSize prevTail isMdd content rest

/-- The tail offset `previous_end + previous_uncomp_size` read from
`record_header[idx - 1]` (mdict.cc lines 1077-1082), zero for the first
block. -/
def prevTailOf (st : MdictQ) (rid : Nat) : Nat :=
  if rid = 0 then 0
  else (st.record_header.getD (rid - 1) rhDefault).decompressed_size_accumulator +
       (st.record_header.getD (rid - 1) rhDefault).decompressed_size

/-- The key-scan part of `decode_record_block_by_rid` applied to the
decompressed block `content`. -/
def scanRecordBlock (st : MdictQ) (rid : Nat) (content : Str) : List (Str × Str) :=
  let hdr := st.record_header.getD rid rhDefault
  scanLoop st.record_block_size hdr.decompressed_size_accumulator hdr.decompressed_size
    (prevTailOf st rid) st.isMdd content st.key_list

/-- The read/decompress/verify part of `decode_record_block_by_rid`
(mdict.cc lines 1061-1129): read `comp_size` bytes at
`record_block_offset + comp_accu`, take byte 0 as the compression type
and bytes 4..8 as the stored Adler-32; types 0 and 1 and record
encryption are rejected, type 2 is decompressed by zlib (an empty result
models a failed decompression), the decompressed length is checked
against `decomp_size` and the recomputed checksum against the stored one.
`zlib` and `adler` stand for the external zlib_wrapper / adler32 helpers
that are not under src/. -/
def decodeRecordBlockContentE (zlib : Str → Str) (adler : Str → Nat) (st : MdictQ)
    (rid : Nat) : Except MdictErr Str :=
  let hdr := st.record_header.getD rid rhDefault
  let raw := (st.file.drop (st.record_block_offset + hdr.compressed_size_accumulator)).take
    hdr.compressed_size
  let compType := raw.getD 0 0 % 256
  let checksum := beBinToU32 (raw.drop 4)
  if compType = 0 then .error .uncompressedNotSupported
  else if st.encrypt = .recordEnc then .error .recordEncrypted
  else if compType = 1 then .error .lzoNotSupported
  else if compType = 2 then
    let content := zlib (raw.drop 8)
    if content = [] then .error .decompressFailed
    else
      let adlerCS := adler (content.take hdr.decompressed_size)
      if content.length ≠ hdr.decompressed_size then .error .sizeMismatch
      else if adlerCS ≠ checksum then .error .checksumMismatch
      else .ok content
  else .error .unknownCompressType

/-- `decode_record_block_by_rid` (mdict.cc lines 1058-1203), split as
content decoding followed by the key scan. -/
def decodeRecordBlockByRid (zlib : Str → Str) (adler : Str → Nat) (st : MdictQ)
    (rid : Nat) : Except MdictErr (List (Str × Str)) :=
  (decodeRecordBlockContentE zlib adler st rid).map (scanRecordBlock st rid)

/-- The binary-search loop of `reduce_record_block_offset` (mdict.cc lines
1659-1671), with explicit fuel; the fuel never runs out in the states the
theorems consider because the interval shrinks at every step. -/
def reduceLoop (accs : List Nat) (rs : Nat) : Nat → Nat → Nat → Nat
  | 0, l, _ => l
  | fuel + 1, l, r =>
    if l ≤ r then
      let mid := l + (r - l) / 2
      if accs.getD mid 0 ≤ rs then reduceLoop accs rs fuel (mid + 1) r
      else reduceLoop accs rs fuel l (mid - 1)
    else l

/-- `reduce_record_block_offset(record_start)` (mdict.cc lines 1656-1674):
binary search over the decompressed-size accumulators returning
`left - 1`. -/
def reduceRecordBlockOffset (st : MdictQ) (rs : Nat) : Nat :=
  reduceLoop (st.record_header.map (fun h => h.decompressed_size_accumulator)) rs
    (st.record_header.length + 1) 0 (st.record_header.length - 1) - 1

/-- `reduce_particial_keys_vector` (mdict.cc lines 1676-1711): first every
pair whose raw key equals the phrase contributes its definition (priority
1); then every remaining pair whose stripped key equals the stripped
phrase contributes its definition (priority 2; `found_indices` marks
exactly the priority-1 pairs, so priority 2 is the pairs with a stripped
but not raw match). -/
def reduceParticialKeysVector (vec : List (Str × Str)) (phrase : Str) : List Str :=
  (vec.filter (fun p => decide (p.1 = phrase))).map (fun p => p.2) ++
  (vec.filter (fun p => !decide (p.1 = phrase) && decide (_s p.1 = _s phrase))).map
    (fun p => p.2)

/-- Ordered insertion without duplicates: the effect of
`record_block_map[idx].push_back(item)` on the sorted key set of a
`std::map<unsigned long, ...>`. -/
def insertSortedNoDup (x : Nat) : List Nat → List Nat
  | [] => [x]
  | y :: ys =>
    if x < y then x :: y :: ys
    else if x = y then y :: ys
    else y :: insertSortedNoDup x ys

/-- The match predicate of the grouping loop of `lookup` (mdict.cc line
1819): raw equality with the word, or `_s`-equality with the stripped
word. -/
def lookupMatches (word : Str) (k : KeyItem) : Prop :=
  k.key_word = word ∨ _s k.key_word = _s word

instance (word : Str) (k : KeyItem) : Decidable (lookupMatches word k) := by
  unfold lookupMatches; infer_instance

/-- The ascending list of record-block indices of `record_block_map`
(mdict.cc lines 1815-1823): matching key items are grouped by
`reduce_record_block_offset(record_start)`; iterating the `std::map`
visits the distinct block indices in increasing order. -/
def matchingBlockList (st : MdictQ) (word : Str) : List Nat :=
  ((st.key_list.filter (fun k => decide (lookupMatches word k))).map
    (fun k => reduceRecordBlockOffset st k.record_start)).foldl
    (fun acc b => insertSortedNoDup b acc) []

/-- The decode-and-collect loop of `lookup` (mdict.cc lines 1833-1843),
over the record-block indices of the map. -/
def lookupBlocksGo (zlib : Str → Str) (adler : Str → Nat) (st : MdictQ) (word : Str) :
    List Nat → List Str → Except MdictErr (List Str)
  | [], acc => .ok acc
  | b :: rest, acc =>
    match decodeRecordBlockByRid zlib adler st b with
    | .error e => .error e
    | .ok vec => lookupBlocksGo zlib adler st word rest
        (acc ++ reduceParticialKeysVector vec word)

/-- Modelled from the spec (§4.I, binutils.h is not under src/):
`trim_nulls` strips trailing NUL bytes. -/
def trimNulls (s : Str) : Str := (s.reverse.dropWhile (fun c => c = 0)).reverse

/-- `locate` (mdict.cc lines 1713-1750) specialised to the
`MDICT_ENCODING_HEX` call made by `lookup` for MDD files: find the first
key item equal to the resource name, decode its record block, reduce, and
return the first definition with trailing NULs stripped (empty when
nothing matches). -/
def locateHexE (zlib : Str → Str) (adler : Str → Nat) (st : MdictQ) (word : Str) :
    Except MdictErr Str :=
  match st.key_list.find? (fun k => decide (k.key_word = word)) with
  | none => .ok []
  | some it =>
    match decodeRecordBlockByRid zlib adler st (reduceRecordBlockOffset st it.record_start) with
    | .error e => .error e
    | .ok vec =>
      let defs := reduceParticialKeysVector vec word
      if defs = [] then .ok []
      else .ok (trimNulls (defs.headD []))

/-- The body of `lookup` (mdict.cc lines 1797-1847) before the surrounding
`try`/`catch`: the MDD path goes through `locate`; the MDX path groups
the matching keys by record block, returns the empty list when the map is
empty, and otherwise decodes each block in ascending order and appends
the reduced definitions. -/
def lookupE (zlib : Str → Str) (adler : Str → Nat) (st : MdictQ) (word : Str) :
    Except MdictErr (List Str) :=
  if st.isMdd then
    match locateHexE zlib adler st word with
    | .error e => .error e
    | .ok r => if r = [] then .ok [] else .ok [r]
  else
    let blocks := matchingBlockList st word
    if blocks.isEmpty then .ok []
    else lookupBlocksGo zlib adler st word blocks []

/-- `lookup` (mdict.cc lines 1797-1852): the whole body runs inside
`try { ... } catch (std::exception&) { ... return {}; }`, so any
exception yields the empty vector. -/
def mdictLookup (zlib : Str → Str) (adler : Str → Nat) (st : MdictQ) (word : Str) :
    List Str :=
  match lookupE zlib adler st word with
  | .ok v => v
  | .error _ => []

/-- `utf8_to_wstring` (mdict.cc lines 1947-1977): manual UTF-8 to UTF-32
walk; truncated multi-byte sequences at the end stop the walk, an invalid
lead byte is skipped. -/
def utf8ToWstring : Str → List Nat
  | [] => []
  | c :: rest =>
    if c < 128 then c :: utf8ToWstring rest
    else if c &&& 0xE0 = 0xC0 then
      match rest with
      | c1 :: rest' => (((c &&& 0x1F) <<< 6) ||| (c1 &&& 0x3F)) :: utf8ToWstring rest'
      | [] => []
    else if c &&& 0xF0 = 0xE0 then
      match rest with
      | c1 :: c2 :: rest' =>
        (((c &&& 0x0F) <<< 12) ||| ((c1 &&& 0x3F) <<< 6) ||| (c2 &&& 0x3F)) ::
          utf8ToWstring rest'
      | _ => []
    else if c &&& 0xF8 = 0xF0 then
      match rest with
      | c1 :: c2 :: c3 :: rest' =>
        (((c &&& 0x07) <<< 18) ||| ((c1 &&& 0x3F) <<< 12) ||| ((c2 &&& 0x3F) <<< 6) |||
          (c3 &&& 0x3F)) :: utf8ToWstring rest'
      | _ => []
    else utf8ToWstring rest
termination_by l => l.length
decreasing_by all_goals simp_arith [List.length]

/-- `::towlower` in the C locale on UTF-32 units, as applied by
`fulltext_search`: ASCII uppercase is lowered, other units unchanged. -/
def toLowerW (l : List Nat) : List Nat := l.map toLowerB

/-- The per-entry scan of one decoded record block in `fulltext_search`
(mdict.cc lines 2136-2157): each definition is converted to a lowercased
wide string and searched for the lowercased wide query; hits append the
headword; the Boolean result signals that 50 results were reached and the
whole search returns. -/
def ftScanEntries (wq : List Nat) : List (Str × Str) → List Str → List Str × Bool
  | [], acc => (acc, false)
  | (k, d) :: rest, acc =>
    if containsSub (toLowerW (utf8ToWstring d)) wq then
      let acc' := acc ++ [k]
      if 50 ≤ acc'.length then (acc', true) else ftScanEntries wq rest acc'
    else ftScanEntries wq rest acc

/-- The block loop of `fulltext_search` (mdict.cc lines 2127-2167): every
record block is decoded in order; a failing block is caught, logged and
skipped; the progress callback (a pure side effect) is omitted. -/
def fulltextGo (zlib : Str → Str) (adler : Str → Nat) (st : MdictQ) (wq : List Nat) :
    List Nat → List Str → List Str
  | [], acc => acc
  | rid :: rest, acc =>
    match decodeRecordBlockByRid zlib adler st rid with
    | .error _ => fulltextGo zlib adler st wq rest acc
    | .ok entries =>
      match ftScanEntries wq entries acc with
      | (acc', true) => acc'
      | (acc', false) => fulltextGo zlib adler st wq rest acc'

/-- `fulltext_search` (mdict.cc lines 2115-2171). -/
def fulltextSearch (zlib : Str → Str) (adler : Str → Nat) (st : MdictQ) (query : Str) :
    List Str :=
  fulltextGo zlib adler st (toLowerW (utf8ToWstring query))
    (List.range st.record_header.length) []

/-- The metacharacters ending the literal run after a leading '^' in
`regex_suggest` (mdict.cc lines 1998-1999). -/
def isSpecialAnchor (c : Nat) : Bool :=
  c = 46 || c = 42 || c = 43 || c = 63 || c = 40 || c = 41 || c = 91 || c = 93 ||
  c = 123 || c = 125 || c = 124 || c = 92 || c = 36

/-- The metacharacters splitting literal runs in the substring prefilter of
`regex_suggest` (mdict.cc lines 2011-2013): the anchor set plus '^'. -/
def isSpecialLit (c : Nat) : Bool := isSpecialAnchor c || c = 94

/-- The longest-literal-run extraction of `regex_suggest` (mdict.cc lines
2009-2024): runs are separated by metacharacters and a strictly longer
run replaces the current best, so the first longest run wins. -/
def longestRunStep (s : Str × Str) (c : Nat) : Str × Str :=
  if isSpecialLit c then
    (if s.2.length < s.1.length then ([], s.1) else ([], s.2))
  else (s.1 ++ [c], s.2)

/-- The required-substring computed by `regex_suggest` from the pattern. -/
def longestRun (pat : Str) : Str :=
  let s := pat.foldl longestRunStep ([], [])
  if s.2.length < s.1.length then s.1 else s.2

/-- The `std::lower_bound` count-halving loop used by `regex_suggest`
(mdict.cc lines 2050-2060), with the case-insensitive comparator.  Fuel
suffices because `count` strictly decreases. -/
def lbGo (l : List KeyItem) (pl : Str) : Nat → Nat → Nat → Nat
  | 0, first, _ => first
  | fuel + 1, first, count =>
    if count = 0 then first
    else
      let step := count / 2
      let it := first + step
      if lexLt (toLowerStr ((l.getD it ⟨0, []⟩).key_word)) (toLowerStr pl) then
        lbGo l pl fuel (it + 1) (count - step - 1)
      else lbGo l pl fuel first step

/-- The start index of the scan of `regex_suggest`: a binary search to the
first key not below the anchored literal when the pattern is anchored. -/
def regexStartIdx (l : List KeyItem) (hasAnchor : Bool) (anchorLit : Str) : Nat :=
  if hasAnchor && !anchorLit.isEmpty then lbGo l anchorLit (l.length + 1) 0 l.length
  else 0

/-- The scan loop of `regex_suggest` (mdict.cc lines 2064-2109), returning
the suggestions together with the final `checked_count`.  `re` stands for
`std::regex_search` of the compiled case-insensitive pattern on the wide
form of the key.  A key failing the anchored-literal check breaks the
scan when lexicographically past the literal and is skipped (uncounted)
otherwise; a key failing the substring prefilter is skipped uncounted;
every key reaching the regex test increments `checked_count` after the
test, and the loop breaks once the counter exceeds 20000. -/
def rsGo (re : Str → Bool) (hasAnchor : Bool) (spl subl : Str) :
    List KeyItem → List Str → Nat → List Str × Nat
  | [], acc, cnt => (acc, cnt)
  | k :: rest, acc, cnt =>
    let kl := toLowerStr k.key_word
    if hasAnchor && !spl.isEmpty && !startsWithB kl spl then
      if lexLt spl kl then (acc, cnt)
      else rsGo re hasAnchor spl subl rest acc cnt
    else if !subl.isEmpty && !containsSub kl subl then
      rsGo re hasAnchor spl subl rest acc cnt
    else
      let acc' := if re (utf8ToWstring k.key_word) then acc ++ [k.key_word] else acc
      if 50 ≤ acc'.length then (acc', cnt)
      else if 20000 < cnt + 1 then (acc', cnt + 1)
      else rsGo re hasAnchor spl subl rest acc' (cnt + 1)

/-- `regex_suggest` (mdict.cc lines 1979-2113): the empty pattern returns
no suggestions; the anchored literal and the longest literal run are
extracted; `compile` stands for the `std::wregex` constructor with
`icase` (the std regex engine is not part of the sources), returning
`none` when construction throws `std::regex_error`, in which case the
function returns no suggestions; otherwise the scan runs from the
binary-searched start position.  The pair also carries the final
`checked_count`. -/
def regexSuggestRun (compile : Str → Option (Str → Bool)) (st : MdictQ)
    (regexStr : Str) : List Str × Nat :=
  if regexStr.isEmpty then ([], 0)
  else
    let hasAnchor := regexStr.headD 0 = 94
    let anchorLit :=
      if hasAnchor then (regexStr.drop 1).takeWhile (fun c => !isSpecialAnchor c) else []
    let requiredSub := longestRun regexStr
    match compile regexStr with
    | none => ([], 0)
    | some re =>
      let start := regexStartIdx st.key_list hasAnchor anchorLit
      rsGo re hasAnchor (toLowerStr anchorLit) (toLowerStr requiredSub)
        (st.key_list.drop start) [] 0

/-- The suggestion list returned by `regex_suggest`. -/
def regexSuggest (compile : Str → Option (Str → Bool)) (st : MdictQ)
    (regexStr : Str) : List Str :=
  (regexSuggestRun compile st regexStr).1

/-- The final `checked_count` of the scan of `regex_suggest`. -/
def regexSuggestChecked (compile : Str → Option (Str → Bool)) (st : MdictQ)
    (regexStr : Str) : Nat :=
  (regexSuggestRun compile st regexStr).2

/-- Each key item of the index paired with its successor in the global key
list (`key_list[i + 1]`), `none` for the last item. -/
def annot (l : List KeyItem) : List (KeyItem × Option KeyItem) :=
  l.zip (l.tail.map some ++ [none])

/-- `record_header[b]` with the out-of-range default. -/
def hdrOf (st : MdictQ) (b : Nat) : RecordHeaderItem := st.record_header.getD b rhDefault

/-- `record_start` `rs` falls inside record block `b`:
`decomp_acc[b] ≤ rs < decomp_acc[b] + decomp_size[b]`. -/
def InBlock (st : MdictQ) (b : Nat) (rs : Nat) : Prop :=
  (hdrOf st b).decompressed_size_accumulator ≤ rs ∧
  rs < (hdrOf st b).decompressed_size_accumulator + (hdrOf st b).decompressed_size

instance (st : MdictQ) (b rs : Nat) : Decidable (InBlock st b rs) := by
  unfold InBlock; infer_instance

/-- The value bytes the scan emits for one annotated key item. -/
def emitVal (recordBlockSize decompAcc uncompSize prevTail : Nat) (isMdd : Bool)
    (content : Str) (p : KeyItem × Option KeyItem) : Str :=
  let b := recordValueBounds recordBlockSize decompAcc uncompSize prevTail p.1 p.2
  if isMdd then hexEncode ((content.drop b.1).take b.2) else beBinToUtf8 content b.1 b.2

/-- The pair the scan emits for one annotated key item, `none` when the item
lies outside the block. -/
def emitEntry (recordBlockSize decompAcc uncompSize prevTail : Nat) (isMdd : Bool)
    (content : Str) (p : KeyItem × Option KeyItem) : Option (Str × Str) :=
  if decompAcc ≤ p.1.record_start ∧ p.1.record_start < decompAcc + uncompSize then
    some (p.1.key_word, emitVal recordBlockSize decompAcc uncompSize prevTail isMdd content p)
  else none

/-- The value bytes of the annotated key item `p` inside record block `b`. -/
def entrySliceVal (st : MdictQ) (b : Nat) (content : Str)
    (p : KeyItem × Option KeyItem) : Str :=
  emitVal st.record_block_size (hdrOf st b).decompressed_size_accumulator
    (hdrOf st b).decompressed_size (prevTailOf st b) st.isMdd content p

/-- The definitions that `lookup` collects from record block `b` for the key
items whose key word satisfies `pk`, in key-list order. -/
def blockValues (st : MdictQ) (b : Nat) (content : Str) (pk : Str → Bool) : List Str :=
  ((annot st.key_list).filter
    (fun p => decide (InBlock st b p.1.record_start) && pk p.1.key_word)).map
    (entrySliceVal st b content)

/-- Stated from the spec's words (§4.J `lookup` and P7): for every record
block (in ascending order) containing at least one key entry that matches
the word raw or under `normalize_for_compare`, emit the values of its
raw-matching entries in order, then the values of its entries matching
only after normalization, each entry contributing once. -/
def lookupSpec (st : MdictQ) (content : Nat → Str) (word : Str) : List Str :=
  ((List.range st.record_header.length).filter
    (fun b => st.key_list.any
      (fun k => decide (lookupMatches word k) && decide (InBlock st b k.record_start)))).flatMap
    (fun b =>
      blockValues st b (content b) (fun kw => decide (kw = word)) ++
      blockValues st b (content b) (fun kw => !decide (kw = word) && decide (_s kw = _s word)))

/-- The record-header accumulators are the prefix sums of the decompressed
sizes, as `read_record_block_header` computes them. -/
def PrefixSums (st : MdictQ) : Prop :=
  ∀ i, i < st.record_header.length →
    (hdrOf st i).decompressed_size_accumulator =
      ((st.record_header.take i).map (fun h => h.decompressed_size)).sum

/-- Total decompressed size of the record stream. -/
def totalDecomp (st : MdictQ) : Nat :=
  (st.record_header.map (fun h => h.decompressed_size)).sum

/-- The global key list is sorted by `record_start` (spec invariant P4). -/
def KeysSorted (st : MdictQ) : Prop :=
  List.Pairwise (fun a b => a.record_start ≤ b.record_start) st.key_list

/-- Every key's `record_start` lies inside the record stream (spec
invariant P4). -/
def KeysInRange (st : MdictQ) : Prop :=
  ∀ k ∈ st.key_list, k.record_start < totalDecomp st

/-- Every record block decodes successfully to `content rid` (well-formed
file: supported compression, matching sizes and checksums). -/
def DecodesOk (zlib : Str → Str) (adler : Str → Nat) (st : MdictQ)
    (content : Nat → Str) : Prop :=
  ∀ rid, rid < st.record_header.length →
    decodeRecordBlockContentE zlib adler st rid = .ok (content rid)

theorem annot_cons (k : KeyItem) (rest : List KeyItem) :
    annot (k :: rest) = (k, rest.head?) :: annot rest := by
  cases rest <;> simp [annot]

theorem mem_annot_fst {l : List KeyItem} {p : KeyItem × Option KeyItem}
    (h : p ∈ annot l) : p.1 ∈ l := by
  obtain ⟨a, b⟩ := p
  exact (List.of_mem_zip h).1

theorem emitEntry_eval (rbs A SZ T : Nat) (mdd : Bool) (c : Str) (k : KeyItem)
    (nx : Option KeyItem) :
    emitEntry rbs A SZ T mdd c (k, nx) =
      (if A ≤ k.record_start ∧ k.record_start < A + SZ then
        some (k.key_word, emitVal rbs A SZ T mdd c (k, nx)) else none) := rfl

theorem scanLoop_eq (rbs A SZ T : Nat) (mdd : Bool) (c : Str) :
    ∀ l : List KeyItem, List.Pairwise (fun a b => a.record_start ≤ b.record_start) l →
      scanLoop rbs A SZ T mdd c l = (annot l).filterMap (emitEntry rbs A SZ T mdd c) := by
  intro l hl
  induction l with
  | nil => simp [scanLoop, annot]
  | cons k rest ih =>
    rw [List.pairwise_cons] at hl
    rw [annot_cons, List.filterMap_cons, scanLoop]
    by_cases hlt : k.record_start < A
    · have he : emitEntry rbs A SZ T mdd c (k, rest.head?) = none := by
        rw [emitEntry_eval, if_neg]; omega
      rw [if_pos hlt, he, ih hl.2]
    · by_cases hbr : SZ ≤ k.record_start - A
      · have he : emitEntry rbs A SZ T mdd c (k, rest.head?) = none := by
          rw [emitEntry_eval, if_neg]; omega
        have hnil : List.filterMap (emitEntry rbs A SZ T mdd c) (annot rest) = [] := by
          rw [List.filterMap_eq_nil_iff]
          intro p hp
          have h2 := hl.1 p.1 (mem_annot_fst hp)
          obtain ⟨p1, p2⟩ := p
          simp only at h2
          rw [emitEntry_eval, if_neg]
          omega
        rw [if_neg hlt, if_pos hbr, he]
        exact hnil.symm
      · have he : emitEntry rbs A SZ T mdd c (k, rest.head?) =
            some (k.key_word, emitVal rbs A SZ T mdd c (k, rest.head?)) := by
          rw [emitEntry_eval, if_pos]; omega
        rw [if_neg hlt, if_neg hbr, he, ih hl.2]
        rfl

/-- Shorthand for `decomp_acc[i]` with the out-of-range default. -/
def accOf (st : MdictQ) (i : Nat) : Nat := (hdrOf st i).decompressed_size_accumulator

/-- Shorthand for `decomp_size[i]` with the out-of-range default. -/
def szOf (st : MdictQ) (i : Nat) : Nat := (hdrOf st i).decompressed_size

theorem acc_add_size (st : MdictQ) (hp : PrefixSums st) (i : Nat)
    (h : i < st.record_header.length) :
    accOf st i + szOf st i =
      ((st.record_header.take (i + 1)).map (fun h => h.decompressed_size)).sum := by
  have hs := List.sum_take_succ (st.record_header.map (fun h => h.decompressed_size)) i
    (by simpa using h)
  rw [← List.map_take, ← List.map_take, List.getElem_map] at hs
  rw [accOf, hp i h, szOf, hdrOf, List.getD_eq_getElem _ _ h, hs]

theorem acc_succ (st : MdictQ) (hp : PrefixSums st) (i : Nat)
    (h : i + 1 < st.record_header.length) :
    accOf st (i + 1) = accOf st i + szOf st i := by
  rw [acc_add_size st hp i (by omega)]
  exact hp (i + 1) h

theorem acc_mono (st : MdictQ) (hp : PrefixSums st) :
    ∀ i j, i ≤ j → j < st.record_header.length → accOf st i ≤ accOf st j := by
  intro i j hij hj
  simp only [accOf] at *
  rw [hp i (by omega), hp j hj]
  have hseg : st.record_header.take j = st.record_header.take i ++
      (st.record_header.drop i).take (j - i) := by
    rw [← List.take_add]
    congr 1
    omega
  rw [hseg, List.map_append, List.sum_append]
  omega

theorem acc_lt_of_inBlock (st : MdictQ) (hp : PrefixSums st) (b rs : Nat)
    (hb : b < st.record_header.length) (hin : InBlock st b rs) :
    ∀ j, b < j → j < st.record_header.length → rs < accOf st j := by
  intro j hbj hj
  have h1 : accOf st (b + 1) ≤ accOf st j := acc_mono st hp (b + 1) j hbj hj
  have h2 : accOf st (b + 1) = accOf st b + szOf st b := acc_succ st hp b (by omega)
  have h3 : rs < accOf st b + szOf st b := hin.2
  omega

theorem accs_getD (st : MdictQ) (j : Nat) :
    (st.record_header.map (fun h => h.decompressed_size_accumulator)).getD j 0 =
      accOf st j := by
  by_cases h : j < st.record_header.length
  · rw [List.getD_eq_getElem _ _ (by simpa using h), List.getElem_map, accOf, hdrOf,
      List.getD_eq_getElem _ _ h]
  · rw [List.getD_eq_default _ _ (by simpa using Nat.le_of_not_lt h), accOf, hdrOf,
      List.getD_eq_default _ _ (Nat.le_of_not_lt h)]
    rfl

theorem inBlock_iff (st : MdictQ) (b rs : Nat) :
    InBlock st b rs ↔ accOf st b ≤ rs ∧ rs < accOf st b + szOf st b := Iff.rfl

theorem reduceLoop_inv (st : MdictQ) (hp : PrefixSums st) (rs : Nat)
    (h0 : accOf st 0 = 0) :
    ∀ fuel l r, (∀ j, j < l → accOf st j ≤ rs) →
      (∀ j, r < j → j < st.record_header.length → rs < accOf st j) →
      r + 1 ≤ fuel + l → r < st.record_header.length →
      (∀ j, j < reduceLoop (st.record_header.map (fun h => h.decompressed_size_accumulator))
          rs fuel l r → accOf st j ≤ rs) ∧
      (∀ j, reduceLoop (st.record_header.map (fun h => h.decompressed_size_accumulator))
          rs fuel l r ≤ j → j < st.record_header.length → rs < accOf st j) ∧
      l ≤ reduceLoop (st.record_header.map (fun h => h.decompressed_size_accumulator))
          rs fuel l r ∧
      reduceLoop (st.record_header.map (fun h => h.decompressed_size_accumulator))
          rs fuel l r ≤ max (r + 1) l := by
  intro fuel
  induction fuel with
  | zero =>
    intro l r invL invR hfuel hr
    simp only [reduceLoop]
    exact ⟨invL, fun j hj hjn => invR j (by omega) hjn, Nat.le_refl l, Nat.le_max_right _ _⟩
  | succ fuel ih =>
    intro l r invL invR hfuel hr
    rw [reduceLoop]
    by_cases hlr : l ≤ r
    · rw [if_pos hlr]
      simp only [accs_getD]
      set mid := l + (r - l) / 2 with hmid
      have hmidl : l ≤ mid := by omega
      have hmidr : mid ≤ r := by omega
      by_cases hcmp : accOf st mid ≤ rs
      · rw [if_pos hcmp]
        have invL' : ∀ j, j < mid + 1 → accOf st j ≤ rs := by
          intro j hj
          exact Nat.le_trans (acc_mono st hp j mid (by omega) (by omega)) hcmp
        have hrec := ih (mid + 1) r invL' invR (by omega) hr
        refine ⟨hrec.1, hrec.2.1, by omega, ?_⟩
        have h4 := hrec.2.2.2
        omega
      · rw [if_neg hcmp]
        have hmid1 : 1 ≤ mid := by
          by_contra hc
          have hz : mid = 0 := by omega
          rw [hz, h0] at hcmp
          omega
        have invR' : ∀ j, mid - 1 < j → j < st.record_header.length → rs < accOf st j := by
          intro j hj hjn
          exact Nat.lt_of_not_le
            (fun hc => hcmp (Nat.le_trans (acc_mono st hp mid j (by omega) hjn) hc))
        have hrec := ih l (mid - 1) invL invR' (by omega) (by omega)
        refine ⟨hrec.1, hrec.2.1, hrec.2.2.1, ?_⟩
        have h4 := hrec.2.2.2
        omega
    · rw [if_neg hlr]
      exact ⟨invL, fun j hj hjn => invR j (by omega) hjn, Nat.le_refl l, Nat.le_max_right _ _⟩

theorem total_eq (st : MdictQ) (hp : PrefixSums st) (h : 0 < st.record_header.length) :
    totalDecomp st =
      accOf st (st.record_header.length - 1) + szOf st (st.record_header.length - 1) := by
  rw [acc_add_size st hp _ (by omega)]
  have h1 : st.record_header.length - 1 + 1 = st.record_header.length := by omega
  rw [h1, List.take_length, totalDecomp]

theorem reduce_correct (st : MdictQ) (hp : PrefixSums st) (rs : Nat)
    (hrs : rs < totalDecomp st) :
    reduceRecordBlockOffset st rs < st.record_header.length ∧
      InBlock st (reduceRecordBlockOffset st rs) rs := by
  have hn : 0 < st.record_header.length := by
    by_contra hc
    have hnil : st.record_header = [] := List.eq_nil_of_length_eq_zero (by omega)
    rw [totalDecomp, hnil] at hrs
    simp at hrs
  have h0 : accOf st 0 = 0 := by
    rw [accOf, hp 0 hn]
    simp
  have hinv := reduceLoop_inv st hp rs h0 (st.record_header.length + 1) 0
    (st.record_header.length - 1) (by omega) (by intro j h1 h2; omega) (by omega) (by omega)
  set L := reduceLoop (st.record_header.map (fun h => h.decompressed_size_accumulator)) rs
    (st.record_header.length + 1) 0 (st.record_header.length - 1) with hL
  have hL1 : 1 ≤ L := by
    by_contra hc
    have hlt : rs < accOf st 0 := hinv.2.1 0 (by omega) hn
    omega
  have hLn : L ≤ st.record_header.length := by
    have h4 := hinv.2.2.2
    omega
  have hbdef : reduceRecordBlockOffset st rs = L - 1 := rfl
  rw [hbdef]
  refine ⟨by omega, ?_⟩
  rw [inBlock_iff]
  refine ⟨hinv.1 (L - 1) (by omega), ?_⟩
  by_cases hcase : L < st.record_header.length
  · have h1 : rs < accOf st L := hinv.2.1 L (Nat.le_refl L) hcase
    have h2 : accOf st L = accOf st (L - 1) + szOf st (L - 1) := by
      have h3 : L - 1 + 1 = L := by omega
      rw [← h3]
      exact acc_succ st hp (L - 1) (by omega)
    omega
  · have htot := total_eq st hp hn
    have h5 : L - 1 = st.record_header.length - 1 := by omega
    rw [h5]
    omega

theorem inBlock_unique (st : MdictQ) (hp : PrefixSums st) (b b' rs : Nat)
    (hb : b < st.record_header.length) (hb' : b' < st.record_header.length)
    (h : InBlock st b rs) (h' : InBlock st b' rs) : b = b' := by
  rcases Nat.lt_trichotomy b b' with hc | hc | hc
  · have h1 := acc_lt_of_inBlock st hp b rs hb h b' hc hb'
    have h2 : accOf st b' ≤ rs := h'.1
    omega
  · exact hc
  · have h1 := acc_lt_of_inBlock st hp b' rs hb' h' b hc hb
    have h2 : accOf st b ≤ rs := h.1
    omega

theorem mem_insertSortedNoDup (x y : Nat) :
    ∀ l : List Nat, (y ∈ insertSortedNoDup x l ↔ y = x ∨ y ∈ l) := by
  intro l
  induction l with
  | nil => simp [insertSortedNoDup]
  | cons a l ih =>
    rw [insertSortedNoDup]
    by_cases h1 : x < a
    · simp [h1]
    · by_cases h2 : x = a
      · subst h2
        simp [h1]
      · rw [if_neg h1, if_neg h2]
        simp [ih]
        tauto

theorem sorted_insertSortedNoDup (x : Nat) :
    ∀ l : List Nat, l.Sorted (· < ·) → (insertSortedNoDup x l).Sorted (· < ·) := by
  intro l
  induction l with
  | nil => intro _; simp [insertSortedNoDup]
  | cons a l ih =>
    intro hs
    rw [List.sorted_cons] at hs
    rw [insertSortedNoDup]
    by_cases h1 : x < a
    · rw [if_pos h1, List.sorted_cons]
      refine ⟨?_, List.sorted_cons.mpr hs⟩
      intro b hb
      rcases List.mem_cons.mp hb with hb | hb
      · omega
      · have := hs.1 b hb
        omega
    · by_cases h2 : x = a
      · rw [if_neg h1, if_pos h2, List.sorted_cons]
        exact hs
      · rw [if_neg h1, if_neg h2, List.sorted_cons]
        refine ⟨?_, ih hs.2⟩
        intro b hb
        rw [mem_insertSortedNoDup] at hb
        rcases hb with hb | hb
        · omega
        · exact hs.1 b hb

theorem foldl_insert_mem (x : Nat) :
    ∀ (bs : List Nat) (acc : List Nat),
      (x ∈ bs.foldl (fun a b => insertSortedNoDup b a) acc ↔ x ∈ acc ∨ x ∈ bs) := by
  intro bs
  induction bs with
  | nil => simp
  | cons b bs ih =>
    intro acc
    rw [List.foldl_cons, ih, mem_insertSortedNoDup]
    simp
    tauto

theorem foldl_insert_sorted :
    ∀ (bs : List Nat) (acc : List Nat), acc.Sorted (· < ·) →
      (bs.foldl (fun a b => insertSortedNoDup b a) acc).Sorted (· < ·) := by
  intro bs
  induction bs with
  | nil => intro acc h; simpa using h
  | cons b bs ih =>
    intro acc h
    rw [List.foldl_cons]
    exact ih _ (sorted_insertSortedNoDup b acc h)

theorem matchingBlockList_sorted (st : MdictQ) (word : Str) :
    (matchingBlockList st word).Sorted (· < ·) := by
  rw [matchingBlockList]
  exact foldl_insert_sorted _ _ (List.sorted_nil)

theorem mem_matchingBlockList (st : MdictQ) (word : Str) (x : Nat) :
    x ∈ matchingBlockList st word ↔
      ∃ k ∈ st.key_list, lookupMatches word k ∧
        reduceRecordBlockOffset st k.record_start = x := by
  rw [matchingBlockList, foldl_insert_mem]
  simp only [List.not_mem_nil, false_or, List.mem_map, List.mem_filter,
    decide_eq_true_eq]
  constructor
  · rintro ⟨k, ⟨hk, hm⟩, hx⟩
    exact ⟨k, hk, hm, hx⟩
  · rintro ⟨k, hk, hm, hx⟩
    exact ⟨k, ⟨hk, hm⟩, hx⟩

/-- The set of record blocks containing a matching key, as the spec's
range-filter. -/
def specBlocks (st : MdictQ) (word : Str) : List Nat :=
  (List.range st.record_header.length).filter
    (fun b => st.key_list.any
      (fun k => decide (lookupMatches word k) && decide (InBlock st b k.record_start)))

theorem mem_specBlocks (st : MdictQ) (word : Str) (x : Nat) :
    x ∈ specBlocks st word ↔
      x < st.record_header.length ∧
        ∃ k ∈ st.key_list, lookupMatches word k ∧ InBlock st x k.record_start := by
  rw [specBlocks]
  simp only [List.mem_filter, List.mem_range, List.any_eq_true, Bool.and_eq_true,
    decide_eq_true_eq]

theorem specBlocks_sorted (st : MdictQ) (word : Str) :
    (specBlocks st word).Sorted (· < ·) :=
  (List.sorted_lt_range _).sublist (List.filter_sublist _)

theorem matchingBlockList_eq_specBlocks (st : MdictQ) (word : Str)
    (hp : PrefixSums st) (hrange : KeysInRange st) :
    matchingBlockList st word = specBlocks st word := by
  have h1 := matchingBlockList_sorted st word
  have h2 := specBlocks_sorted st word
  have hnd1 : (matchingBlockList st word).Nodup := h1.nodup
  have hnd2 : (specBlocks st word).Nodup := h2.nodup
  refine List.eq_of_perm_of_sorted ?_ h1.le_of_lt h2.le_of_lt
  rw [List.perm_ext_iff_of_nodup hnd1 hnd2]
  intro x
  rw [mem_matchingBlockList, mem_specBlocks]
  constructor
  · rintro ⟨k, hk, hm, hx⟩
    have hc := reduce_correct st hp k.record_start (hrange k hk)
    rw [hx] at hc
    exact ⟨hc.1, k, hk, hm, hc.2⟩
  · rintro ⟨hxn, k, hk, hm, hin⟩
    have hc := reduce_correct st hp k.record_start (hrange k hk)
    refine ⟨k, hk, hm, ?_⟩
    exact inBlock_unique st hp _ x k.record_start hc.1 hxn hc.2 hin

theorem decodeByRid_ok (zlib : Str → Str) (adler : Str → Nat) (st : MdictQ)
    (content : Nat → Str) (hdec : DecodesOk zlib adler st content) (b : Nat)
    (hb : b < st.record_header.length) :
    decodeRecordBlockByRid zlib adler st b = .ok (scanRecordBlock st b (content b)) := by
  rw [decodeRecordBlockByRid, hdec b hb]
  rfl

theorem lookupBlocksGo_ok (zlib : Str → Str) (adler : Str → Nat) (st : MdictQ)
    (word : Str) (content : Nat → Str) (hdec : DecodesOk zlib adler st content) :
    ∀ (bl : List Nat) (acc : List Str), (∀ b ∈ bl, b < st.record_header.length) →
      lookupBlocksGo zlib adler st word bl acc =
        .ok (acc ++ bl.flatMap
          (fun b => reduceParticialKeysVector (scanRecordBlock st b (content b)) word)) := by
  intro bl
  induction bl with
  | nil => intro acc _; simp [lookupBlocksGo]
  | cons b bl ih =>
    intro acc hin
    simp only [lookupBlocksGo,
      decodeByRid_ok zlib adler st content hdec b (hin b (List.mem_cons_self b bl))]
    rw [ih _ (fun b' hb' => hin b' (List.mem_cons_of_mem b hb'))]
    simp

theorem filterMap_emit_filter_map (rbs A SZ T : Nat) (mdd : Bool) (c : Str)
    (pk : Str → Bool) :
    ∀ l : List (KeyItem × Option KeyItem),
      ((l.filterMap (emitEntry rbs A SZ T mdd c)).filter (fun q => pk q.1)).map
          (fun q => q.2) =
        (l.filter (fun p =>
          decide (A ≤ p.1.record_start ∧ p.1.record_start < A + SZ) && pk p.1.key_word)).map
          (emitVal rbs A SZ T mdd c) := by
  intro l
  induction l with
  | nil => simp
  | cons p l ih =>
    obtain ⟨k, nx⟩ := p
    by_cases hin : A ≤ k.record_start ∧ k.record_start < A + SZ
    · have he : emitEntry rbs A SZ T mdd c (k, nx) =
          some (k.key_word, emitVal rbs A SZ T mdd c (k, nx)) := by
        rw [emitEntry_eval, if_pos hin]
      have hd : decide (A ≤ k.record_start ∧ k.record_start < A + SZ) = true :=
        decide_eq_true hin
      by_cases hpk : pk k.key_word = true
      · simp [List.filterMap_cons, he, List.filter_cons, hd, hpk, hin, ih]
      · have hpk' : pk k.key_word = false := by
          cases hc : pk k.key_word
          · rfl
          · exact absurd hc hpk
        simp [List.filterMap_cons, he, List.filter_cons, hd, hpk', hin, ih]
    · have he : emitEntry rbs A SZ T mdd c (k, nx) = none := by
        rw [emitEntry_eval, if_neg hin]
      have hd : decide (A ≤ k.record_start ∧ k.record_start < A + SZ) = false :=
        decide_eq_false hin
      simp [List.filterMap_cons, he, List.filter_cons, hd, hin, ih]

theorem scan_filter_map (st : MdictQ) (b : Nat) (c : Str) (pk : Str → Bool)
    (hsorted : KeysSorted st) :
    ((scanRecordBlock st b c).filter (fun q => pk q.1)).map (fun q => q.2) =
      blockValues st b c pk := by
  have hscan : scanRecordBlock st b c = (annot st.key_list).filterMap
      (emitEntry st.record_block_size (hdrOf st b).decompressed_size_accumulator
        (hdrOf st b).decompressed_size (prevTailOf st b) st.isMdd c) :=
    scanLoop_eq _ _ _ _ _ _ _ hsorted
  rw [hscan, filterMap_emit_filter_map]
  have hpq : ∀ p ∈ annot st.key_list,
      (decide ((hdrOf st b).decompressed_size_accumulator ≤ p.1.record_start ∧
        p.1.record_start < (hdrOf st b).decompressed_size_accumulator +
          (hdrOf st b).decompressed_size) && pk p.1.key_word) =
      (decide (InBlock st b p.1.record_start) && pk p.1.key_word) := by
    intro p _
    congr 1
  rw [List.filter_congr hpq]
  rfl

theorem reduce_scan_eq (st : MdictQ) (b : Nat) (c : Str) (word : Str)
    (hsorted : KeysSorted st) :
    reduceParticialKeysVector (scanRecordBlock st b c) word =
      blockValues st b c (fun kw => decide (kw = word)) ++
      blockValues st b c (fun kw => !decide (kw = word) && decide (_s kw = _s word)) :=
  congrArg₂ (fun a b => a ++ b)
    (scan_filter_map st b c (fun kw => decide (kw = word)) hsorted)
    (scan_filter_map st b c (fun kw => !decide (kw = word) && decide (_s kw = _s word)) hsorted)

theorem annot_getElem? :
    ∀ (l : List KeyItem) (i : Nat), i < l.length →
      (annot l)[i]? = some (l.getD i ⟨0, []⟩, l[i + 1]?) := by
  intro l
  induction l with
  | nil => intro i hi; simp at hi
  | cons k rest ih =>
    intro i hi
    cases i with
    | zero => cases rest <;> simp [annot_cons]
    | succ i =>
      rw [annot_cons]
      simp only [List.getElem?_cons_succ, List.getD_cons_succ]
      exact ih i (by simpa using hi)

/-- C1: on a well-formed TEXT dictionary (prefix-sum record directory, key
list sorted by `record_start` and inside the record stream, every record
block decoding to `content rid`), `lookup` returns exactly `lookupSpec`:
for each record block holding a matching entry, the raw-key matches'
values followed by the normalized-only matches' values, each entry
contributing once; consequently the value extracted for every stored
entry is contained in `lookup` of that entry's key (round trip). -/
theorem c1_lookup_correct (zlib : Str → Str) (adler : Str → Nat) (st : MdictQ)
    (content : Nat → Str) (word : Str) (hmdx : st.isMdd = false)
    (hp : PrefixSums st) (hsorted : KeysSorted st) (hrange : KeysInRange st)
    (hdec : DecodesOk zlib adler st content) :
    mdictLookup zlib adler st word = lookupSpec st content word ∧
    (∀ i, i < st.key_list.length →
      entrySliceVal st (reduceRecordBlockOffset st (st.key_list.getD i ⟨0, []⟩).record_start)
        (content (reduceRecordBlockOffset st (st.key_list.getD i ⟨0, []⟩).record_start))
        (st.key_list.getD i ⟨0, []⟩, st.key_list[i + 1]?) ∈
        mdictLookup zlib adler st (st.key_list.getD i ⟨0, []⟩).key_word) := by
  have hmainAll : ∀ w : Str, mdictLookup zlib adler st w = lookupSpec st content w := by
    intro w
    have hblocks := matchingBlockList_eq_specBlocks st w hp hrange
    have hchunk : (fun b => reduceParticialKeysVector (scanRecordBlock st b (content b)) w) =
        (fun b => blockValues st b (content b) (fun kw => decide (kw = w)) ++
          blockValues st b (content b) (fun kw => !decide (kw = w) && decide (_s kw = _s w))) :=
      funext fun b => reduce_scan_eq st b (content b) w hsorted
    have hE : lookupE zlib adler st w = .ok (lookupSpec st content w) := by
      rw [lookupE, hmdx]
      simp only [Bool.false_eq_true, if_false]
      rw [hblocks]
      by_cases hemp : (specBlocks st w).isEmpty
      · rw [if_pos hemp]
        rw [List.isEmpty_iff] at hemp
        rw [lookupSpec]
        rw [show ((List.range st.record_header.length).filter
          (fun b => st.key_list.any (fun k => decide (lookupMatches w k) &&
            decide (InBlock st b k.record_start)))) = specBlocks st w from rfl, hemp]
        simp
      · rw [if_neg hemp]
        rw [lookupBlocksGo_ok zlib adler st w content hdec _ []
          (fun b hb => ((mem_specBlocks st w b).mp hb).1)]
        rw [List.nil_append, hchunk]
        rfl
    rw [mdictLookup, hE]
  refine ⟨hmainAll word, ?_⟩
  intro i hi
  set k := st.key_list.getD i ⟨0, []⟩ with hk
  have hkmem : k ∈ st.key_list := by
    rw [hk, List.getD_eq_getElem _ _ hi]
    exact List.getElem_mem hi
  have hcorr := reduce_correct st hp k.record_start (hrange k hkmem)
  set b := reduceRecordBlockOffset st k.record_start with hb
  have hbmem : b ∈ specBlocks st k.key_word :=
    (mem_specBlocks st k.key_word b).mpr ⟨hcorr.1, k, hkmem, Or.inl rfl, hcorr.2⟩
  have hannot : (k, st.key_list[i + 1]?) ∈ annot st.key_list := by
    apply List.getElem?_mem
    exact annot_getElem? st.key_list i hi
  rw [hmainAll k.key_word]
  rw [lookupSpec]
  apply List.mem_flatMap.mpr
  refine ⟨b, hbmem, ?_⟩
  apply List.mem_append_left
  apply List.mem_map.mpr
  refine ⟨(k, st.key_list[i + 1]?), ?_, rfl⟩
  apply List.mem_filter.mpr
  refine ⟨hannot, ?_⟩
  rw [Bool.and_eq_true]
  exact ⟨decide_eq_true hcorr.2, decide_eq_true rfl⟩

deriving instance DecidableEq for Except

instance (st : MdictQ) : Decidable (PrefixSums st) := by
  unfold PrefixSums; infer_instance

instance (st : MdictQ) : Decidable (KeysSorted st) := by
  unfold KeysSorted; infer_instance

instance (st : MdictQ) : Decidable (KeysInRange st) := by
  unfold KeysInRange; infer_instance

instance (zlib : Str → Str) (adler : Str → Nat) (st : MdictQ) (content : Nat → Str) :
    Decidable (DecodesOk zlib adler st content) := by
  unfold DecodesOk; infer_instance

/-- A concrete well-formed one-block TEXT dictionary: two keys at record
starts 0 and 2, one zlib record block of decompressed size 4. -/
def stC1 : MdictQ :=
  ⟨false, .noEnc, [⟨0, [97]⟩, ⟨2, [98]⟩], [⟨16, 4, 0, 0⟩], 16, 0,
    [2, 0, 0, 0, 0, 0, 0, 0, 1, 1, 1, 1, 1, 1, 1, 1]⟩

/-- The zlib stand-in for the concrete dictionary. -/
def zlibC1 : Str → Str := fun _ => [10, 11, 12, 13]

/-- The adler32 stand-in for the concrete dictionary. -/
def adlerC1 : Str → Nat := fun _ => 0

/-- The decompressed block contents of the concrete dictionary. -/
def contentC1 : Nat → Str := fun _ => [10, 11, 12, 13]

theorem c1_lookup_correct_witness :
    (stC1.isMdd = false ∧ PrefixSums stC1 ∧ KeysSorted stC1 ∧ KeysInRange stC1 ∧
      DecodesOk zlibC1 adlerC1 stC1 contentC1) ∧
    mdictLookup zlibC1 adlerC1 stC1 [97] = lookupSpec stC1 contentC1 [97] ∧
    entrySliceVal stC1
        (reduceRecordBlockOffset stC1 (stC1.key_list.getD 0 ⟨0, []⟩).record_start)
        (contentC1 (reduceRecordBlockOffset stC1 (stC1.key_list.getD 0 ⟨0, []⟩).record_start))
        (stC1.key_list.getD 0 ⟨0, []⟩, stC1.key_list[1]?) ∈
      mdictLookup zlibC1 adlerC1 stC1 (stC1.key_list.getD 0 ⟨0, []⟩).key_word :=
  ⟨⟨rfl, by decide, by decide, by decide, by decide⟩,
    (c1_lookup_correct zlibC1 adlerC1 stC1 contentC1 [97] rfl (by decide) (by decide)
      (by decide) (by decide)).1,
    (c1_lookup_correct zlibC1 adlerC1 stC1 contentC1 [97] rfl (by decide) (by decide)
      (by decide) (by decide)).2 0 (by decide)⟩

theorem parseEncoding_const (a : Option Str) : parseEncoding a = .utf8 := by
  cases a with
  | none => simp [parseEncoding]
  | some s => simp [parseEncoding]

/-- C2 (code evaluation): the `Encoding` condition of `read_header` tests
`find != end`, so every header value — present or absent — stores UTF-8;
in particular a header declaring `Encoding="GBK"` yields UTF-8 and not the
GB18030 required by the spec's table. -/
theorem c2_encoding_eval :
    (∀ a : Option Str, parseEncoding a = EncodingT.utf8) ∧
    parseEncoding (some (bytes "GBK")) = EncodingT.utf8 ∧
    parseEncoding (some (bytes "GBK")) ≠ EncodingT.gb18030 :=
  ⟨parseEncoding_const, parseEncoding_const _, by rw [parseEncoding_const]; decide⟩

/-- C3 (counterexample): a header declaring GeneratedByEngineVersion=1.2
(bytes 49 46 50) parses to a version below 2.0, and
`decode_key_block_info` then throws `logic_error("not implements yet")`
instead of parsing 4-byte fields, so `init()` fails for every v<2.0
file. -/
theorem c3_counterexample :
    parseVersion [49, 46, 50] < 2 ∧
    decodeKeyBlockInfoE (fun x => x) (fun x => x) (fun x _ => x)
      ⟨parseVersion [49, 46, 50], .noEnc, false, false, 1, 0⟩ [2, 0, 0, 0] =
      .error .notImplemented := by
  have hv : parseVersion [49, 46, 50] < 2 := by
    norm_num [parseVersion, isSpaceB, isDigitB, digitsVal, List.dropWhile, List.takeWhile]
  refine ⟨hv, ?_⟩
  rw [decodeKeyBlockInfoE, if_neg (not_le.mpr hv)]

/-- C3 (amended): for every header version below 2.0,
`decode_key_block_info` fails with the not-implemented error (the 4-byte
layout is unimplemented), so `init()` — which always reaches it through
`read_key_block_info` — fails instead of producing a key index. -/
theorem c3_amended (zlib : Str → Str) (ripemd : Str → Str)
    (mddKeyDec : Str → Nat → Str) (ctx : KBICtx) (buf : Str)
    (hv : ctx.version < 2) :
    decodeKeyBlockInfoE zlib ripemd mddKeyDec ctx buf = .error .notImplemented := by
  rw [decodeKeyBlockInfoE, if_neg (not_le.mpr hv)]

theorem c3_amended_witness :
    parseVersion [49, 46, 50] < 2 ∧
    decodeKeyBlockInfoE (fun _ => [2, 0, 0, 0]) (fun x => x) (fun x _ => x)
      ⟨parseVersion [49, 46, 50], .keyInfoEnc, true, true, 3, 7⟩ [9, 9] =
      .error .notImplemented := by
  have hv : parseVersion [49, 46, 50] < 2 := by
    norm_num [parseVersion, isSpaceB, isDigitB, digitsVal, List.dropWhile, List.takeWhile]
  exact ⟨hv, c3_amended (fun _ => [2, 0, 0, 0]) (fun x => x) (fun x _ => x)
    ⟨parseVersion [49, 46, 50], .keyInfoEnc, true, true, 3, 7⟩ [9, 9] hv⟩

theorem fastDecryptLoop_getD (key : Str) (keyLen : Nat) :
    ∀ (data : Str) (i0 prev j : Nat), j < data.length →
      (fastDecryptLoop key keyLen data i0 prev).getD j 0 =
        rotl4 (data.getD j 0) ^^^
          (if j = 0 then prev else data.getD (j - 1) 0) % 256 ^^^
          (i0 + j) % 256 ^^^ key.getD ((i0 + j) % keyLen) 0 % 256 := by
  intro data
  induction data with
  | nil => intro i0 prev j hj; simp at hj
  | cons b rest ih =>
    intro i0 prev j hj
    cases j with
    | zero => simp [fastDecryptLoop]
    | succ j =>
      rw [fastDecryptLoop]
      simp only [List.getD_cons_succ]
      rw [ih (i0 + 1) b j (by simpa using hj)]
      cases j with
      | zero => simp [Nat.add_comm, Nat.add_assoc, Nat.add_left_comm]
      | succ j =>
        have h4 : j + 1 + 1 - 1 = j + 1 := by omega
        have h5 : j + 1 - 1 = j := by omega
        rw [if_neg (Nat.succ_ne_zero j), if_neg (Nat.succ_ne_zero (j + 1)), h4, h5,
          List.getD_cons_succ]
        have h1 : i0 + 1 + (j + 1) = i0 + (j + 1 + 1) := by omega
        rw [h1]

theorem drop_getD (l : Str) (m n : Nat) (h : m + n < l.length) :
    (l.drop m).getD n 0 = l.getD (m + n) 0 := by
  have h2 : n < (l.drop m).length := by simp; omega
  rw [List.getD_eq_getElem _ _ h2, List.getD_eq_getElem _ _ h]
  simp

/-- C7: `mdx_decrypt` leaves the first 8 payload bytes unchanged, hashes the
8-byte buffer `payload[4..8] ++ [0x95, 0x36, 0x00, 0x00]` with ripemd128
(an explicit parameter; ripemd128.h is not under src/), and rewrites the
byte at offset `8 + i` to
`rotl4(b) XOR previous XOR (i mod 256) XOR key[i mod 16]`, where
`previous` is the pre-transform preceding byte (seeded 0x36 = 54 for
i = 0) and each operand is truncated to a byte. -/
theorem c7_descramble (ripemd : Str → Str) (payload : Str) :
    (mdxDecrypt ripemd payload).take 8 = payload.take 8 ∧
    (8 ≤ payload.length → ((payload.drop 4).take 4 ++ [149, 54, 0, 0]).length = 8) ∧
    (∀ i, 8 + i < payload.length →
      (mdxDecrypt ripemd payload).getD (8 + i) 0 =
        rotl4 (payload.getD (8 + i) 0) ^^^
          (if i = 0 then 54 else payload.getD (8 + i - 1) 0) % 256 ^^^
          i % 256 ^^^
          (ripemd ((payload.drop 4).take 4 ++ [149, 54, 0, 0])).getD (i % 16) 0 % 256) := by
  refine ⟨?_, ?_, ?_⟩
  · rw [mdxDecrypt, List.take_append_eq_append_take, List.take_take]
    by_cases h : 8 ≤ payload.length
    · have h1 : (payload.take 8).length = 8 := by simp [h]
      rw [h1]
      simp
    · have hd : payload.drop 8 = [] := List.drop_eq_nil_of_le (by omega)
      rw [hd]
      simp [fastDecrypt, fastDecryptLoop]
  · intro h
    simp
    omega
  · intro i hi
    rw [mdxDecrypt]
    have hlen : (payload.take 8).length = 8 := by simp; omega
    rw [List.getD_append_right _ _ _ _ (by omega)]
    rw [hlen]
    have h2 : 8 + i - 8 = i := by omega
    rw [h2, fastDecrypt, fastDecryptLoop_getD _ _ _ _ _ i (by simp; omega)]
    rw [drop_getD _ _ _ (by omega)]
    cases i with
    | zero => simp
    | succ i =>
      have h3 : 8 + (i + 1) - 1 = 8 + i := by omega
      rw [if_neg (by omega), if_neg (by omega), h3, drop_getD _ _ _ (by omega)]
      simp [Nat.zero_add]

/-- A stand-in hash for the descrambler witness. -/
def ripemdC7 : Str → Str := fun _ => List.range 16

/-- A concrete 10-byte scrambled payload for the descrambler witness. -/
def payloadC7 : Str := [1, 2, 3, 4, 5, 6, 7, 8, 9, 10]

theorem c7_descramble_witness :
    (mdxDecrypt ripemdC7 payloadC7).take 8 = payloadC7.take 8 ∧
    (8 ≤ payloadC7.length ∧
      ((payloadC7.drop 4).take 4 ++ [149, 54, 0, 0]).length = 8) ∧
    (8 + 1 < payloadC7.length ∧
      (mdxDecrypt ripemdC7 payloadC7).getD (8 + 1) 0 =
        rotl4 (payloadC7.getD (8 + 1) 0) ^^^
          (if 1 = 0 then 54 else payloadC7.getD (8 + 1 - 1) 0) % 256 ^^^
          1 % 256 ^^^
          (ripemdC7 ((payloadC7.drop 4).take 4 ++ [149, 54, 0, 0])).getD (1 % 16) 0 % 256) :=
  ⟨(c7_descramble ripemdC7 payloadC7).1,
   ⟨by decide, (c7_descramble ripemdC7 payloadC7).2.1 (by decide)⟩,
   ⟨by decide, (c7_descramble ripemdC7 payloadC7).2.2 1 (by decide)⟩⟩

theorem mdxDecrypt_getD_lt8 (ripemd : Str → Str) (buf : Str) (i : Nat) (hi : i < 8) :
    (mdxDecrypt ripemd buf).getD i 0 = buf.getD i 0 := by
  rw [mdxDecrypt]
  by_cases h : i < buf.length
  · have h8 : i < (buf.take 8).length := by simp; omega
    rw [List.getD_append _ _ _ _ h8, List.getD_eq_getElem _ _ h8,
      List.getD_eq_getElem _ _ h]
    simp
  · have hlen : (buf.take 8).length = buf.length := by simp; omega
    have hd : buf.drop 8 = [] := List.drop_eq_nil_of_le (by omega)
    rw [List.getD_append_right _ _ _ _ (by omega), hd]
    simp only [fastDecrypt, fastDecryptLoop, List.getD_nil]
    rw [List.getD_eq_default _ _ (Nat.le_of_not_lt h)]

theorem parseEncrypted_recordEnc_iff (a : Option Str) :
    parseEncrypted a = .recordEnc ↔
      (a = some (bytes "Yes") ∨ ∃ t, a = some t ∧ t.head? = some 49) := by
  cases a with
  | none => simp [parseEncrypted]
  | some s =>
    constructor
    · intro h
      rw [parseEncrypted] at h
      by_cases h1 : s = [] ∨ s = bytes "No"
      · rw [if_pos h1] at h
        exact absurd h (by decide)
      · rw [if_neg h1] at h
        by_cases h2 : s = bytes "Yes"
        · exact Or.inl (by rw [h2])
        · rw [if_neg h2] at h
          by_cases h3 : s.headD 0 = 50
          · rw [if_pos h3] at h
            exact absurd h (by decide)
          · rw [if_neg h3] at h
            by_cases h4 : s.headD 0 = 49
            · refine Or.inr ⟨s, rfl, ?_⟩
              cases s with
              | nil => exact absurd (Or.inl rfl) h1
              | cons c cs => simpa using h4
            · rw [if_neg h4] at h
              exact absurd h (by decide)
    · intro h
      rcases h with h | ⟨t, ht, hh⟩
      · have hs : s = bytes "Yes" := Option.some.inj h
        subst hs
        decide
      · have hts : s = t := Option.some.inj ht
        subst hts
        cases s with
        | nil => simp at hh
        | cons c cs =>
          have hc : c = 49 := by simpa using hh
          subst hc
          have hNo : bytes "No" = [78, 111] := rfl
          have hYes : bytes "Yes" = [89, 101, 115] := rfl
          rw [parseEncrypted,
            if_neg (by rw [hNo]; rintro (hx | hx) <;> simp at hx),
            if_neg (by rw [hYes]; intro hx; simp at hx),
            if_neg (by simp), if_pos (by simp)]

theorem parseEncrypted_keyInfo (t : Str) (hh : t.head? = some 50) :
    parseEncrypted (some t) = .keyInfoEnc := by
  cases t with
  | nil => simp at hh
  | cons c cs =>
    have hc : c = 50 := by simpa using hh
    subst hc
    have hNo : bytes "No" = [78, 111] := rfl
    have hYes : bytes "Yes" = [89, 101, 115] := rfl
    rw [parseEncrypted,
      if_neg (by rw [hNo]; rintro (hx | hx) <;> simp at hx),
      if_neg (by rw [hYes]; intro hx; simp at hx),
      if_pos (by simp)]

/-- C6: `init()` rejects a file with the unsupported-encryption error
exactly when the `Encrypted` attribute equals "Yes" or starts with '1'
(both map to record encryption, which `read_key_block_header` rejects
before parsing; every other mode is accepted there); an attribute
starting with '2' maps to key-info scrambling, and decoding the
key-block-info payload of such a file equals decoding the
`mdx_decrypt`-descrambled payload with encryption off — the payload is
descrambled before decompression. -/
theorem c6_encryption :
    (∀ a : Option Str, parseEncrypted a = .recordEnc ↔
      (a = some (bytes "Yes") ∨ ∃ t, a = some t ∧ t.head? = some 49)) ∧
    (∀ (version : Rat) (encrypt : EncryptT) (file : Str) (off : Nat),
      (readKeyBlockHeaderE version encrypt file off = .error .invalidEncryptedFile ↔
        encrypt = .recordEnc) ∧
      (encrypt ≠ .recordEnc → ∃ r, readKeyBlockHeaderE version encrypt file off = .ok r)) ∧
    (∀ t : Str, t.head? = some 50 → parseEncrypted (some t) = .keyInfoEnc) ∧
    (∀ (zlib : Str → Str) (ripemd : Str → Str) (mddKeyDec : Str → Nat → Str)
      (ctx : KBICtx) (buf : Str), ctx.encrypt = .keyInfoEnc →
      decodeKeyBlockInfoE zlib ripemd mddKeyDec ctx buf =
        decodeKeyBlockInfoE zlib ripemd mddKeyDec
          ⟨ctx.version, .noEnc, ctx.utf16, ctx.isMdd, ctx.key_block_num,
            ctx.key_block_info_decompress_size⟩ (mdxDecrypt ripemd buf)) := by
  refine ⟨parseEncrypted_recordEnc_iff, ?_, parseEncrypted_keyInfo, ?_⟩
  · intro version encrypt file off
    by_cases he : encrypt = .recordEnc
    · subst he
      constructor
      · simp [readKeyBlockHeaderE]
      · intro hc
        exact absurd rfl hc
    · constructor
      · rw [readKeyBlockHeaderE, if_neg he]
        constructor
        · intro hc
          exact absurd hc (by simp)
        · intro hc
          exact absurd hc he
      · intro _
        rw [readKeyBlockHeaderE, if_neg he]
        exact ⟨_, rfl⟩
  · rintro zlib ripemd mddKeyDec ⟨v, e, u, m, kn, ks⟩ buf he
    simp only at he
    subst he
    have hm : ∀ i, i < 8 → (mdxDecrypt ripemd buf).getD i 0 = buf.getD i 0 :=
      fun i hi => mdxDecrypt_getD_lt8 ripemd buf i hi
    rw [decodeKeyBlockInfoE, decodeKeyBlockInfoE]
    dsimp only
    rw [if_pos (rfl : EncryptT.keyInfoEnc = EncryptT.keyInfoEnc),
      if_neg (show ¬ EncryptT.noEnc = EncryptT.keyInfoEnc by decide)]
    by_cases hv : (2 : Rat) ≤ v
    · rw [if_pos hv, if_pos hv]
      by_cases hmagic : buf.getD 0 0 = 2 ∧ buf.getD 1 0 = 0 ∧ buf.getD 2 0 = 0 ∧
          buf.getD 3 0 = 0
      · have hmagic' : (mdxDecrypt ripemd buf).getD 0 0 = 2 ∧
            (mdxDecrypt ripemd buf).getD 1 0 = 0 ∧
            (mdxDecrypt ripemd buf).getD 2 0 = 0 ∧
            (mdxDecrypt ripemd buf).getD 3 0 = 0 := by
          rw [hm 0 (by omega), hm 1 (by omega), hm 2 (by omega), hm 3 (by omega)]
          exact hmagic
        rw [if_pos hmagic, if_pos hmagic']
      · have hmagic' : ¬ ((mdxDecrypt ripemd buf).getD 0 0 = 2 ∧
            (mdxDecrypt ripemd buf).getD 1 0 = 0 ∧
            (mdxDecrypt ripemd buf).getD 2 0 = 0 ∧
            (mdxDecrypt ripemd buf).getD 3 0 = 0) := by
          intro hc
          apply hmagic
          rw [← hm 0 (by omega), ← hm 1 (by omega), ← hm 2 (by omega), ← hm 3 (by omega)]
          exact hc
        rw [if_neg hmagic, if_neg hmagic']
    · rw [if_neg hv, if_neg hv]

/-- A zlib stand-in whose decompression always fails (empty output). -/
def zlibFail : Str → Str := fun _ => []

/-- C5 (counterexample): on a dictionary whose single record block fails to
decompress, the matching word makes `lookup`'s body raise the
decompress-failed error, but `lookup` catches it and returns the empty
list — the error is not propagated to the caller. -/
theorem c5_counterexample :
    lookupE zlibFail adlerC1 stC1 [97] = .error .decompressFailed ∧
    mdictLookup zlibFail adlerC1 stC1 [97] = [] := by
  decide

/-- C5 (amended): a record-block decode error aborts the whole `lookup`
query, which catches the exception and returns the empty list (nothing is
propagated to the caller); `fulltext_search` skips a failing block and
continues with the remaining ones; and `lookup` of a word with no
matching key returns the empty list without an error. -/
theorem c5_amended :
    (∀ (zlib : Str → Str) (adler : Str → Nat) (st : MdictQ) (word : Str) (e : MdictErr),
      lookupE zlib adler st word = .error e → mdictLookup zlib adler st word = []) ∧
    (∀ (zlib : Str → Str) (adler : Str → Nat) (st : MdictQ) (wq : List Nat)
      (rid : Nat) (rest : List Nat) (acc : List Str) (e : MdictErr),
      decodeRecordBlockByRid zlib adler st rid = .error e →
      fulltextGo zlib adler st wq (rid :: rest) acc =
        fulltextGo zlib adler st wq rest acc) ∧
    (∀ (zlib : Str → Str) (adler : Str → Nat) (st : MdictQ) (word : Str),
      st.isMdd = false → (∀ k ∈ st.key_list, ¬ lookupMatches word k) →
      lookupE zlib adler st word = .ok [] ∧ mdictLookup zlib adler st word = []) := by
  refine ⟨?_, ?_, ?_⟩
  · intro zlib adler st word e h
    rw [mdictLookup, h]
  · intro zlib adler st wq rid rest acc e h
    rw [fulltextGo, h]
  · intro zlib adler st word hmdd hno
    have hb : matchingBlockList st word = [] := by
      cases hM : matchingBlockList st word with
      | nil => rfl
      | cons x xs =>
        obtain ⟨k, hk, hm, _⟩ := (mem_matchingBlockList st word x).mp
          (by rw [hM]; exact List.mem_cons_self x xs)
        exact absurd hm (hno k hk)
    have hE : lookupE zlib adler st word = .ok [] := by
      rw [lookupE, hmdd]
      simp only [Bool.false_eq_true, if_false]
      rw [hb]
      rfl
    exact ⟨hE, by rw [mdictLookup, hE]⟩

theorem c5_amended_witness :
    (lookupE zlibFail adlerC1 stC1 [98] = .error .decompressFailed ∧
      mdictLookup zlibFail adlerC1 stC1 [98] = []) ∧
    (decodeRecordBlockByRid zlibFail adlerC1 stC1 0 = .error .decompressFailed ∧
      fulltextGo zlibFail adlerC1 stC1 [97] [0] [] =
        fulltextGo zlibFail adlerC1 stC1 [97] [] []) ∧
    (lookupE zlibC1 adlerC1 stC1 [99] = .ok [] ∧
      mdictLookup zlibC1 adlerC1 stC1 [99] = []) :=
  ⟨⟨by decide, c5_amended.1 zlibFail adlerC1 stC1 [98] .decompressFailed (by decide)⟩,
   ⟨by decide, c5_amended.2.1 zlibFail adlerC1 stC1 [97] 0 [] [] .decompressFailed
     (by decide)⟩,
   c5_amended.2.2 zlibC1 adlerC1 stC1 [99] rfl (by decide)⟩

theorem c6_encryption_witness :
    parseEncrypted (some (bytes "Yes")) = .recordEnc ∧
    readKeyBlockHeaderE 2 .recordEnc [] 0 = .error .invalidEncryptedFile ∧
    parseEncrypted (some (bytes "2abc")) = .keyInfoEnc ∧
    decodeKeyBlockInfoE (fun _ => [7]) (fun _ => List.range 16) (fun x _ => x)
      ⟨2, .keyInfoEnc, false, false, 0, 1⟩ [2, 0, 0, 0, 9, 9, 9, 9, 65] =
      decodeKeyBlockInfoE (fun _ => [7]) (fun _ => List.range 16) (fun x _ => x)
        ⟨2, .noEnc, false, false, 0, 1⟩
        (mdxDecrypt (fun _ => List.range 16) [2, 0, 0, 0, 9, 9, 9, 9, 65]) :=
  ⟨(c6_encryption.1 (some (bytes "Yes"))).mpr (Or.inl rfl),
   (c6_encryption.2.1 2 .recordEnc [] 0).1.mpr rfl,
   c6_encryption.2.2.1 (bytes "2abc") (by decide),
   c6_encryption.2.2.2 (fun _ => [7]) (fun _ => List.range 16) (fun x _ => x)
     ⟨2, .keyInfoEnc, false, false, 0, 1⟩ [2, 0, 0, 0, 9, 9, 9, 9, 65] rfl⟩

/-- C4 (counterexample): with a block of decompressed size 10 at
accumulator 0, a key at record_start 4 whose successor starts at 20 gets
`expect_end = 16` and `upbound = min 16 10 = 10`, so the computed slice
`[4, 4 + 10)` extends 4 bytes past the end of the decompressed block: the
length is clamped to `decomp_size`, not to
`decomp_size - start_in_block = 6`. -/
theorem c4_counterexample :
    recordValueBounds 32 0 10 0 ⟨4, [97]⟩ (some ⟨20, [98]⟩) = (4, 10) ∧
    ((recordValueBounds 32 0 10 0 ⟨4, [97]⟩ (some ⟨20, [98]⟩)).1 +
      (recordValueBounds 32 0 10 0 ⟨4, [97]⟩ (some ⟨20, [98]⟩)).2 ≤ 10 → False) ∧
    ((recordValueBounds 32 0 10 0 ⟨4, [97]⟩ (some ⟨20, [98]⟩)).2 =
      10 - (recordValueBounds 32 0 10 0 ⟨4, [97]⟩ (some ⟨20, [98]⟩)).1 → False) := by
  decide

/-- C4 (amended): the value length for a key with a successor is
`next.record_start - record_start`, for the last key it is
`record_block_size - (previous_end + previous_uncomp_size)`, and in both
cases it is clamped to `decomp_size` (the whole block's decompressed
size, not `decomp_size - start_in_block`), so the slice can extend past
the block end; under a sorted key list the record-block decode emits
exactly the in-block entries with these bounds. -/
theorem c4_amended (zlib : Str → Str) (adler : Str → Nat) (st : MdictQ) (rid : Nat)
    (c : Str) (hsorted : KeysSorted st)
    (hok : decodeRecordBlockContentE zlib adler st rid = .ok c) :
    decodeRecordBlockByRid zlib adler st rid = .ok ((annot st.key_list).filterMap
      (emitEntry st.record_block_size (hdrOf st rid).decompressed_size_accumulator
        (hdrOf st rid).decompressed_size (prevTailOf st rid) st.isMdd c)) ∧
    (∀ (k : KeyItem) (nx : Option KeyItem),
      recordValueBounds st.record_block_size (hdrOf st rid).decompressed_size_accumulator
        (hdrOf st rid).decompressed_size (prevTailOf st rid) k nx =
      (k.record_start - (hdrOf st rid).decompressed_size_accumulator,
       min (match nx with
            | some k' => k'.record_start - k.record_start
            | none => st.record_block_size - prevTailOf st rid)
         (hdrOf st rid).decompressed_size)) := by
  constructor
  · rw [decodeRecordBlockByRid, hok]
    exact congrArg Except.ok
      (scanLoop_eq st.record_block_size (hdrOf st rid).decompressed_size_accumulator
        (hdrOf st rid).decompressed_size (prevTailOf st rid) st.isMdd c st.key_list hsorted)
  · intro k nx
    cases nx <;> rfl

theorem c4_amended_witness :
    KeysSorted stC1 ∧
    decodeRecordBlockContentE zlibC1 adlerC1 stC1 0 = .ok [10, 11, 12, 13] ∧
    decodeRecordBlockByRid zlibC1 adlerC1 stC1 0 = .ok ((annot stC1.key_list).filterMap
      (emitEntry stC1.record_block_size (hdrOf stC1 0).decompressed_size_accumulator
        (hdrOf stC1 0).decompressed_size (prevTailOf stC1 0) stC1.isMdd
        [10, 11, 12, 13])) :=
  ⟨by decide, by decide,
   (c4_amended zlibC1 adlerC1 stC1 0 [10, 11, 12, 13] (by decide) (by decide)).1⟩

theorem rsGo_inv (re : Str → Bool) (hasAnchor : Bool) (spl subl : Str) :
    ∀ (l : List KeyItem) (acc : List Str) (cnt : Nat),
      acc.length ≤ 49 → cnt ≤ 20000 →
      (rsGo re hasAnchor spl subl l acc cnt).1.length ≤ 50 ∧
      (rsGo re hasAnchor spl subl l acc cnt).2 ≤ 20001 ∧
      (∀ w ∈ (rsGo re hasAnchor spl subl l acc cnt).1,
        w ∈ acc ∨ re (utf8ToWstring w) = true) := by
  intro l
  induction l with
  | nil =>
    intro acc cnt hacc hcnt
    refine ⟨by simpa [rsGo] using (by omega : acc.length ≤ 50), by simp [rsGo]; omega, ?_⟩
    intro w hw
    exact Or.inl (by simpa [rsGo] using hw)
  | cons k rest ih =>
    intro acc cnt hacc hcnt
    rw [rsGo]
    by_cases h1 : (hasAnchor && !spl.isEmpty && !startsWithB (toLowerStr k.key_word) spl) = true
    · rw [if_pos h1]
      by_cases h2 : lexLt spl (toLowerStr k.key_word) = true
      · rw [if_pos h2]
        exact ⟨by show acc.length ≤ 50; omega, by omega, fun w hw => Or.inl hw⟩
      · rw [if_neg h2]
        exact ih acc cnt hacc hcnt
    · rw [if_neg h1]
      by_cases h3 : (!subl.isEmpty && !containsSub (toLowerStr k.key_word) subl) = true
      · rw [if_pos h3]
        exact ih acc cnt hacc hcnt
      · rw [if_neg h3]
        by_cases hre : re (utf8ToWstring k.key_word) = true
        · rw [if_pos hre]
          by_cases h4 : 50 ≤ (acc ++ [k.key_word]).length
          · rw [if_pos h4]
            refine ⟨by simp; omega, by omega, ?_⟩
            intro w hw
            rcases List.mem_append.mp hw with hw | hw
            · exact Or.inl hw
            · rw [List.mem_singleton.mp hw]
              exact Or.inr hre
          · rw [if_neg h4]
            by_cases h5 : 20000 < cnt + 1
            · rw [if_pos h5]
              refine ⟨by simp at h4 ⊢; omega, by omega, ?_⟩
              intro w hw
              rcases List.mem_append.mp hw with hw | hw
              · exact Or.inl hw
              · rw [List.mem_singleton.mp hw]
                exact Or.inr hre
            · rw [if_neg h5]
              have hrec := ih (acc ++ [k.key_word]) (cnt + 1)
                (by simp at h4 ⊢; omega) (by omega)
              refine ⟨hrec.1, hrec.2.1, ?_⟩
              intro w hw
              rcases hrec.2.2 w hw with hw2 | hw2
              · rcases List.mem_append.mp hw2 with hw3 | hw3
                · exact Or.inl hw3
                · rw [List.mem_singleton.mp hw3]
                  exact Or.inr hre
              · exact Or.inr hw2
        · rw [if_neg hre]
          by_cases h4 : 50 ≤ acc.length
          · rw [if_pos h4]
            exact absurd h4 (by omega)
          · rw [if_neg h4]
            by_cases h5 : 20000 < cnt + 1
            · rw [if_pos h5]
              exact ⟨by show acc.length ≤ 50; omega, by omega, fun w hw => Or.inl hw⟩
            · rw [if_neg h5]
              exact ih acc (cnt + 1) hacc (by omega)

/-- C9 (amended): `regex_suggest` returns at most 50 keys, each matched by
the compiled case-insensitive regex on its wide form, and the scan
examines at most 20,001 candidates with the full regex test — the hard
20,000 limit is checked only after the counter increment, so the
20,001st regex-tested candidate is still examined before the loop
breaks (candidates skipped by the anchored-literal or substring
prefilters are not counted at all, as in the source). -/
theorem c9_amended (compile : Str → Option (Str → Bool)) (st : MdictQ) (pat : Str) :
    (regexSuggest compile st pat).length ≤ 50 ∧
    regexSuggestChecked compile st pat ≤ 20001 ∧
    (∀ w ∈ regexSuggest compile st pat,
      ∃ re, compile pat = some re ∧ re (utf8ToWstring w) = true) := by
  rw [regexSuggest, regexSuggestChecked, regexSuggestRun]
  by_cases hemp : pat.isEmpty
  · rw [if_pos hemp]
    exact ⟨by simp, by simp, by simp⟩
  · rw [if_neg hemp]
    cases hc : compile pat with
    | none => exact ⟨by simp, by simp, by simp⟩
    | some re =>
      dsimp only
      have hrec := rsGo_inv re (decide (pat.headD 0 = 94))
        (toLowerStr (if pat.headD 0 = 94 then
          (pat.drop 1).takeWhile (fun c => !isSpecialAnchor c) else []))
        (toLowerStr (longestRun pat))
        (st.key_list.drop (regexStartIdx st.key_list (decide (pat.headD 0 = 94))
          (if pat.headD 0 = 94 then
            (pat.drop 1).takeWhile (fun c => !isSpecialAnchor c) else [])))
        [] 0 (by simp) (by omega)
      refine ⟨hrec.1, hrec.2.1, ?_⟩
      intro w hw
      rcases hrec.2.2 w hw with hw2 | hw2
      · simp at hw2
      · exact ⟨re, rfl, hw2⟩

theorem c9_amended_witness :
    (regexSuggest (fun _ => some (fun _ => true)) stC1 [97]).length ≤ 50 ∧
    regexSuggestChecked (fun _ => some (fun _ => true)) stC1 [97] ≤ 20001 ∧
    ([97] ∈ regexSuggest (fun _ => some (fun _ => true)) stC1 [97] ∧
      ∃ re, (fun _ : Str => some (fun _ : Str => true)) [97] = some re ∧
        re (utf8ToWstring [97]) = true) :=
  ⟨(c9_amended (fun _ => some (fun _ => true)) stC1 [97]).1,
   (c9_amended (fun _ => some (fun _ => true)) stC1 [97]).2.1,
   by decide,
   (c9_amended (fun _ => some (fun _ => true)) stC1 [97]).2.2 [97] (by decide)⟩

theorem rsGo_count_noFilter (re : Str → Bool) (hre : ∀ w, re w = false) :
    ∀ (l : List KeyItem) (acc : List Str) (cnt : Nat), cnt ≤ 20000 →
      acc.length ≤ 49 →
      (rsGo re false [] [] l acc cnt).2 = min (cnt + l.length) 20001 := by
  intro l
  induction l with
  | nil =>
    intro acc cnt hcnt hacc
    show cnt = min (cnt + 0) 20001
    omega
  | cons k rest ih =>
    intro acc cnt hcnt hacc
    rw [rsGo]
    rw [if_neg (by simp), if_neg (by simp), if_neg (by rw [hre]; simp; omega)]
    by_cases h5 : 20000 < cnt + 1
    · rw [if_pos h5]
      show cnt + 1 = _
      simp only [List.length_cons]
      omega
    · rw [if_neg h5]
      rw [hre]
      simp only [Bool.false_eq_true, if_false]
      rw [ih acc (cnt + 1) (by omega) hacc]
      simp only [List.length_cons]
      omega

/-- The state for the scan-ceiling counterexample: 20,002 identical keys. -/
def stC9 : MdictQ := ⟨false, .noEnc, List.replicate 20002 ⟨0, [97]⟩, [], 0, 0, []⟩

/-- A compiled regex that matches nothing. -/
def compileFalse : Str → Option (Str → Bool) := fun _ => some (fun _ => false)


theorem regexSuggestChecked_eq (compile : Str → Option (Str → Bool)) (st : MdictQ)
    (pat : Str) (re : Str → Bool) (hemp : pat.isEmpty = false)
    (hc : compile pat = some re) :
    regexSuggestChecked compile st pat =
      (rsGo re (decide (pat.headD 0 = 94))
        (toLowerStr (if pat.headD 0 = 94 then
          (pat.drop 1).takeWhile (fun c => !isSpecialAnchor c) else []))
        (toLowerStr (longestRun pat))
        (st.key_list.drop (regexStartIdx st.key_list (decide (pat.headD 0 = 94))
          (if pat.headD 0 = 94 then
            (pat.drop 1).takeWhile (fun c => !isSpecialAnchor c) else [])))
        [] 0).2 := by
  rw [regexSuggestChecked, regexSuggestRun, if_neg (by rw [hemp]; simp), hc]

/-- C9 (counterexample): on a 20,002-key dictionary with the pattern "."
(no anchor, no literal prefilter) and a regex matching nothing, the scan
examines 20,001 candidates before the hard limit breaks the loop — more
than the 20,000 stated by the claim. -/
theorem c9_counterexample :
    regexSuggestChecked compileFalse stC9 [46] = 20001 := by
  rw [regexSuggestChecked_eq compileFalse stC9 [46] (fun _ => false) rfl rfl]
  have hlist : stC9.key_list.drop (regexStartIdx stC9.key_list
      (decide (([46] : Str).headD 0 = 94))
      (if ([46] : Str).headD 0 = 94 then
        (([46] : Str).drop 1).takeWhile (fun c => !isSpecialAnchor c) else [])) =
      List.replicate 20002 (⟨0, [97]⟩ : KeyItem) := by
    rw [show regexStartIdx stC9.key_list (decide (([46] : Str).headD 0 = 94))
      (if ([46] : Str).headD 0 = 94 then
        (([46] : Str).drop 1).takeWhile (fun c => !isSpecialAnchor c) else []) = 0 from rfl,
      List.drop_zero]
    rfl
  rw [hlist,
    show (decide (([46] : Str).headD 0 = 94)) = false from rfl,
    show toLowerStr (if ([46] : Str).headD 0 = 94 then
      (([46] : Str).drop 1).takeWhile (fun c => !isSpecialAnchor c) else []) = [] from rfl,
    show toLowerStr (longestRun [46]) = [] from rfl]
  have h := rsGo_count_noFilter (fun _ => false) (fun _ => rfl)
    (List.replicate 20002 (⟨0, [97]⟩ : KeyItem)) [] 0 (by omega) (by simp)
  rw [List.length_replicate] at h
  have h2 : min (0 + 20002) 20001 = 20001 := by omega
  rw [h2] at h
  exact h

/-- C10: `regex_suggest` returns the empty list, with no candidates
examined and no error, when the pattern is empty or when the pattern
fails to compile (`std::regex_error`, modelled as `compile` returning
`none`); the source mutates no member of the dictionary, so the
embedding is a pure function of the state and the state is unchanged. -/
theorem c10_regex_failures (compile : Str → Option (Str → Bool)) (st : MdictQ)
    (pat : Str) (h : pat = [] ∨ compile pat = none) :
    regexSuggest compile st pat = [] ∧ regexSuggestChecked compile st pat = 0 := by
  rcases h with h | h
  · subst h
    exact ⟨rfl, rfl⟩
  · by_cases hemp : pat.isEmpty
    · constructor
      · rw [regexSuggest, regexSuggestRun, if_pos hemp]
      · rw [regexSuggestChecked, regexSuggestRun, if_pos hemp]
    · constructor
      · rw [regexSuggest, regexSuggestRun, if_neg hemp, h]
      · rw [regexSuggestChecked, regexSuggestRun, if_neg hemp, h]

theorem c10_regex_failures_witness :
    (regexSuggest (fun _ => some (fun _ => true)) stC1 [] = [] ∧
      regexSuggestChecked (fun _ => some (fun _ => true)) stC1 [] = 0) ∧
    (regexSuggest (fun _ => none) stC1 [91] = [] ∧
      regexSuggestChecked (fun _ => none) stC1 [91] = 0) :=
  ⟨c10_regex_failures (fun _ => some (fun _ => true)) stC1 [] (Or.inl rfl),
   c10_regex_failures (fun _ => none) stC1 [91] (Or.inr rfl)⟩
